import Mathlib

/-!
Verification of the MineruCustom discarded-block reclassification and
footnote/page re-insertion pipeline.

Shallow embedding conventions:
  * Python strings are `List Char`; floats are modelled as `ℚ` (the geometry
    in the source only multiplies, divides and compares page coordinates);
  * a Python dict field that may be absent is an `Option`;
  * fallible helpers return `Option`.

Each definition carries a comment naming the source function it embeds
(file and line numbers refer to the repository under `src/`).
-/

namespace Mineru

/- ============== Text utilities (src/src/tool/footnotes2mineru.py) ============== -/

/-- Python's whitespace class for `str.split()` / `str.isspace()` / `str.strip()`
(restricted to the ASCII whitespace characters; the source texts are compared
with the same class on both sides, so the exact set is immaterial to the claims). -/
def isSpace (c : Char) : Bool :=
  c == ' ' || c == '\t' || c == '\n' || c == '\r' || c == '\x0b' || c == '\x0c'

/-- Python `''.join(s.split())`: remove every whitespace character
(footnotes2mineru.py lines 41-42). -/
def stripWs (s : List Char) : List Char := s.filter (fun c => !isSpace c)

/-- Number of non-whitespace characters of a string. -/
def nonWsCount (s : List Char) : Nat := (stripWs s).length

/-- Python `s.strip()`: drop leading and trailing whitespace. -/
def pyStrip (s : List Char) : List Char :=
  (((s.dropWhile isSpace).reverse.dropWhile isSpace).reverse)

/-- Python `hay.find(pat)` on lists: index of the first occurrence of `pat`
as a contiguous sublist, `none` when absent (the source's `-1`). -/
def findSub (pat : List Char) : List Char → Option Nat
  | [] => if pat.isEmpty then some 0 else none
  | c :: rest =>
    if pat.isPrefixOf (c :: rest) then some 0
    else (findSub pat rest).map (· + 1)

/-- The offset-remapping inner loop of `TextProcessor.find_insertion_point`
(footnotes2mineru.py lines 51-57, repeated at 71-76 and 95-100): walk the
original string, counting non-whitespace characters, until `k` of them have
been passed; return how many characters were consumed.  The `[]` case models
the unreachable Python `IndexError` (it is reached only if `k` exceeds the
number of non-whitespace characters of `md`, which the call sites exclude). -/
def mapBack : List Char → Nat → Nat
  | _, 0 => 0
  | [], _ + 1 => 0
  | c :: rest, k + 1 =>
    if isSpace c then 1 + mapBack rest (k + 1) else 1 + mapBack rest k

/-- Helper for `pySplitWs`: accumulate the current (reversed) word. -/
def wordsAux : List Char → List Char → List (List Char)
  | cur, [] => if cur.isEmpty then [] else [cur.reverse]
  | cur, c :: rest =>
    if isSpace c then
      if cur.isEmpty then wordsAux [] rest else cur.reverse :: wordsAux [] rest
    else wordsAux (c :: cur) rest

/-- Python `s.split()` with no argument: split on whitespace runs, dropping
empty pieces. -/
def pySplitWs (s : List Char) : List (List Char) := wordsAux [] s

/-- Python `'\n'.join(pieces)`. -/
def joinNL : List (List Char) → List Char
  | [] => []
  | [s] => s
  | s :: rest => s ++ '\n' :: joinNL rest

/-- Stable descending insertion by key: skip over earlier entries whose key is
strictly larger, so that among equal keys earlier input entries stay first —
the tie behaviour of Python's stable `sort(key=..., reverse=True)`. -/
def insertDescBy {α β : Type} [LinearOrder β] (key : α → β) (x : α) : List α → List α
  | [] => [x]
  | y :: ys => if key x < key y then y :: insertDescBy key x ys else x :: y :: ys

/-- Stable descending sort by key; models Python `sorted(l, key=key, reverse=True)`
and `l.sort(key=key, reverse=True)`. -/
def sortDescBy {α β : Type} [LinearOrder β] (key : α → β) : List α → List α
  | [] => []
  | x :: xs => insertDescBy key x (sortDescBy key xs)

/-- Python `min(l)` for a non-empty list (the `[]` case is unreachable at the
guarded call site). -/
def minList : List Nat → Nat
  | [] => 0
  | x :: xs => xs.foldl Nat.min x

/-- Python `max(candidates, key=len, default='')` where every candidate is
non-empty (the source filters on `len > 10` first): keep the first entry of
maximal length, starting from the empty default. -/
def maxByLen (l : List (List Char)) : List Char :=
  l.foldl (fun best s => if best.length < s.length then s else best) []

/- ============== Fuzzy Anchor Locator (footnotes2mineru.py 38-107) ============== -/

/-- Strategy 2 of `TextProcessor.find_insertion_point` (lines 59-77): split the
(already whitespace-free) target on `'。'`, take the longest stripped segment
longer than 10 characters, and search for it whitespace-insensitively. -/
def step2 (official_md hay' target' : List Char) : Option Nat :=
  let segments := target'.splitOn '。'
  if 1 < segments.length then
    let longest_segment := maxByLen ((segments.map pyStrip).filter (fun s => 10 < s.length))
    if longest_segment.isEmpty then none
    else
      match findSub (stripWs longest_segment) hay' with
      | some idx => some (mapBack official_md idx)
      | none => none
  else none

/-- Strategy 3 of `TextProcessor.find_insertion_point` (lines 79-107): keyword
search over whitespace-delimited tokens longer than 2 characters, keeping the
3 longest, returning the leftmost hit, else the end of the document. -/
def step3 (official_md hay' target' : List Char) : Nat :=
  let words := (pySplitWs target').filter (fun w => 2 < w.length)
  if words.isEmpty then official_md.length
  else
    let keywords := (sortDescBy List.length words).take 3
    let positions := keywords.filterMap
      (fun keyword => (findSub (stripWs keyword) hay').map (mapBack official_md))
    if positions.isEmpty then official_md.length else minList positions

/-- Embeds `TextProcessor.find_insertion_point` (footnotes2mineru.py lines 38-107).
The source's `window` and `similarity_threshold` parameters are unused in its
body and therefore omitted.  Returns `-1` exactly when the whitespace-stripped
target is empty; otherwise a character offset into `official_md`. -/
def find_insertion_point (official_md target_text : List Char) : Int :=
  let target' := stripWs target_text
  let hay' := stripWs official_md
  if target'.isEmpty then -1
  else
    match findSub target' hay' with
    | some index => ((mapBack official_md index : Nat) : Int)
    | none =>
      match step2 official_md hay' target' with
      | some i => ((i : Nat) : Int)
      | none => ((step3 official_md hay' target' : Nat) : Int)

/- ============== Footnote Filter (footnotes2mineru.py 112-144; the identical
copy lives at minerucustom/tool/generate_footnote_md.py 34-66) ============== -/

/-- Python `s.isdigit()` (restricted to ASCII digits): non-empty and all digits. -/
def pyIsDigit (l : List Char) : Bool := !l.isEmpty && l.all (fun c => c.isDigit)

/-- The filter's keyword denylist (lines 124-126). -/
def exclude_keywords : List (List Char) := ["解密".toList, "加微".toList]

/-- Regex `^·\d+·$` (line 134). The middle digits are inspected reversed,
which does not change an all-digits check. -/
def patSepNumSep (t : List Char) : Bool :=
  match t with
  | '·' :: rest =>
    match rest.reverse with
    | '·' :: ds => !ds.isEmpty && ds.all (fun c => c.isDigit)
    | _ => false
  | _ => false

/-- Regex `^·\d+N·$` (line 135). -/
def patSepNumNSep (t : List Char) : Bool :=
  match t with
  | '·' :: rest =>
    match rest.reverse with
    | '·' :: 'N' :: ds => !ds.isEmpty && ds.all (fun c => c.isDigit)
    | _ => false
  | _ => false

/-- Regex `^·\d+[A-Z]$` (line 136). -/
def patSepNumUpper (t : List Char) : Bool :=
  match t with
  | '·' :: rest =>
    match rest.reverse with
    | c :: ds => ('A' ≤ c && c ≤ 'Z') && (!ds.isEmpty && ds.all (fun d => d.isDigit))
    | _ => false
  | _ => false

/-- Regex `^·\d+$` (line 137). -/
def patSepNum (t : List Char) : Bool :=
  match t with
  | '·' :: rest => !rest.isEmpty && rest.all (fun c => c.isDigit)
  | _ => false

/-- Embeds `FootnoteFilter.should_exclude_footnote` (footnotes2mineru.py lines 112-144
and generate_footnote_md.py lines 34-66, which are identical): exclude pure
numbers (also with `'·'` stripped), the keyword denylist, and the decorative
`·number·`-style patterns. -/
def should_exclude_footnote (text : List Char) : Bool :=
  let t := pyStrip text
  if pyIsDigit t || pyIsDigit (t.filter (fun c => c != '·')) then true
  else if exclude_keywords.any (fun keyword => (findSub keyword t).isSome) then true
  else if patSepNumSep t || patSepNumNSep t || patSepNumUpper t || patSepNum t then true
  else false

/- ============== Insertion Compositor (footnotes2mineru.py 712-722) ============== -/

/-- One Python splice `final_text[:pos] + mark + final_text[pos:]` (line 722). -/
def pySplice (doc : List Char) (pos : Nat) (mark : List Char) : List Char :=
  doc.take pos ++ mark ++ doc.drop pos

/-- The splice stage of `FootnoteProcessor.build_final_text` (lines 712-722):
stable-sort the insertion points by offset descending, then splice from the
highest offset down.  (The rest of the source function, lines 724-747, applies
unrelated markdown reformatting passes after composition and is outside the
Insertion Compositor contract being verified.) -/
def build_final_text (official_md : List Char) (all_insert_points : List (Nat × List Char)) :
    List Char :=
  (sortDescBy Prod.fst all_insert_points).foldl
    (fun final_text pm => pySplice final_text pm.1 pm.2) official_md

/-- Shift every insertion offset down by `o` (bookkeeping for `interleave`). -/
def shiftPts (o : Nat) (pts : List (Nat × List Char)) : List (Nat × List Char) :=
  pts.map (fun pm => (pm.1 - o, pm.2))

/-- Canonical interleaving of an ascending list of insertion points into a
document: lay `doc[:o] ++ f` down and continue in the rest of the document.
Used as the specification-side description of the compositor. -/
def interleave : List Char → List (Nat × List Char) → List Char
  | doc, [] => doc
  | doc, (o, f) :: rest => doc.take o ++ f ++ interleave (doc.drop o) (shiftPts o rest)
termination_by _ pts => pts.length
decreasing_by simp [shiftPts]

/-- The final windows occupied by the fragments of an ascending insertion list:
each fragment starts at its own offset plus the total length of the fragments
laid down before it. -/
def fragWindows (acc : Nat) : List (Nat × List Char) → List (Nat × List Char)
  | [] => []
  | (o, f) :: rest => (o + acc, f) :: fragWindows (acc + f.length) rest

/-- Remove one window `(position, length)` from a string. -/
def removeWinStep (w : Nat × Nat) (acc : List Char) : List Char :=
  acc.take w.1 ++ acc.drop (w.1 + w.2)

/-- Remove the windows `(position, length)`, processed in list order; positions
are interpreted in the current string, so the windows must be supplied in
descending position order for removal not to disturb later windows. -/
def removeWindowsDesc (s : List Char) (ws : List (Nat × Nat)) : List Char :=
  ws.foldl (fun acc w => removeWinStep w acc) s

/- ============== Data model (JSON block tree) ============== -/

/-- A `span` dict: `type`, `content`, `bbox`; any key may be absent. -/
structure Span where
  type : Option (List Char)
  content : Option (List Char)
  bbox : Option (List ℚ)
deriving DecidableEq

/-- A `line` dict: `spans` (possibly absent or not a list, both modelled as
`none`) and `bbox`. -/
structure Line where
  spans : Option (List Span)
  bbox : Option (List ℚ)
deriving DecidableEq

/-- A block dict.  Blocks sometimes carry `lines`, sometimes only the flat
text-like fields `text`/`content`/`caption`/`description`. -/
structure Block where
  type : Option (List Char)
  bbox : Option (List ℚ)
  lines : Option (List Line)
  text : Option (List Char)
  content : Option (List Char)
  caption : Option (List Char)
  description : Option (List Char)
deriving DecidableEq

/-- A page record of `pdf_info`.  The fields whose payload the pipeline treats
opaquely (it only ever substitutes an empty list) are modelled as
`Option (List Unit)`. -/
structure Page where
  preproc_blocks : Option (List Block)
  layout_bboxes : Option (List Unit)
  page_idx : Option Nat
  page_size : Option (List ℚ)
  layout_tree : Option (List Unit)
  images : Option (List Unit)
  tables : Option (List Unit)
  interline_equations : Option (List Unit)
  discarded_blocks : Option (List Block)
  para_blocks : Option (List Block)
  need_drop : Option Bool
  drop_reason : Option (List Unit)
deriving DecidableEq

/- ==== Block Schema Repair and Classifier/Mover
        (src/minerucustom/core/reprocess_discarded.py) ==== -/

/-- Embeds `fix_incomplete_page_data` (reprocess_discarded.py lines 236-288).  The
source loops over the required field names, defaulting each missing one
independently; this embedding unrolls that loop into one record update (each
loop iteration touches only the field it names).  `layout_tree` models the
source's `_layout_tree` key.  Returns the repaired page and the `fixed` flag. -/
def fix_incomplete_page_data (p : Page) (page_idx : Nat) : Page × Bool :=
  let fixedMissing :=
    p.preproc_blocks.isNone || p.layout_bboxes.isNone || p.page_idx.isNone ||
    p.page_size.isNone || p.layout_tree.isNone || p.images.isNone ||
    p.tables.isNone || p.interline_equations.isNone || p.discarded_blocks.isNone ||
    p.para_blocks.isNone
  let ps1 := p.page_size.getD [1000, 1000]
  let sizeFix : List ℚ × Bool :=
    if ps1.length = 1 then (ps1 ++ [1400], true)
    else if ps1.length = 0 then ([1000, 1400], true)
    else (ps1, false)
  let fixedDrop := p.need_drop.isNone || p.drop_reason.isNone
  ({ preproc_blocks := some (p.preproc_blocks.getD [])
     layout_bboxes := some (p.layout_bboxes.getD [])
     page_idx := some (p.page_idx.getD page_idx)
     page_size := some sizeFix.1
     layout_tree := some (p.layout_tree.getD [])
     images := some (p.images.getD [])
     tables := some (p.tables.getD [])
     interline_equations := some (p.interline_equations.getD [])
     discarded_blocks := some (p.discarded_blocks.getD [])
     para_blocks := some (p.para_blocks.getD [])
     need_drop := some (p.need_drop.getD false)
     drop_reason := some (p.drop_reason.getD []) },
   fixedMissing || sizeFix.2 || fixedDrop)

/-- The enumerated valid span types (reprocess_discarded.py line 325). -/
def validSpanTypes : List (List Char) :=
  ["text".toList, "inline_equation".toList, "interline_equation".toList,
   "image".toList, "table".toList]

/-- Span normalization inside `convert_to_para_block_format`
(reprocess_discarded.py lines 318-327): a span without `type` gets `type =
"text"` (and empty `content` when `content` is also missing); a span whose
`type` is outside the enumerated set is coerced to `"text"`. -/
def fixSpan (s : Span) : Span :=
  match s.type with
  | none =>
    match s.content with
    | some _ => { s with type := some "text".toList }
    | none => { s with type := some "text".toList, content := some [] }
  | some t => if t ∈ validSpanTypes then s else { s with type := some "text".toList }

/-- Line normalization inside `convert_to_para_block_format` (lines 314-327):
a missing/non-list `spans` becomes `[]`, then every span is normalized. -/
def fixLine (l : Line) : Line :=
  { l with spans := some ((l.spans.getD []).map fixSpan) }

/-- First truthy entry among the flat text fields (lines 335-338):
`for field in ['text','content','caption','description']: if field in block
and block[field]: ...; break`. -/
def firstTruthy : List (Option (List Char)) → List Char
  | [] => []
  | none :: rest => firstTruthy rest
  | some t :: rest => if t.isEmpty then firstTruthy rest else t

/-- Embeds `convert_to_para_block_format` (reprocess_discarded.py lines 290-361):
`none` when `bbox` is missing; a block with `lines` keeps its structure with
`type` forced to `"text"` and its spans normalized; a block without `lines`
gets one synthesized line/span carrying the first flat text field.  (The
source's `except Exception` guard cannot fire in this pure model.) -/
def convert_to_para_block_format (discarded_block : Block) : Option Block :=
  match discarded_block.bbox with
  | none => none
  | some bx =>
    match discarded_block.lines with
    | some ls =>
      some { discarded_block with
              type := some "text".toList
              lines := some (ls.map fixLine) }
    | none =>
      let text_content := firstTruthy
        [discarded_block.text, discarded_block.content,
         discarded_block.caption, discarded_block.description]
      some { type := some "text".toList
             bbox := some bx
             lines := some [{ bbox := some bx
                              spans := some [{ bbox := some bx
                                               type := some "text".toList
                                               content := some text_content }] }]
             text := none, content := none, caption := none, description := none }

/-- The geometry/validity test of the mover (reprocess_discarded.py line 158):
`if bbox and len(bbox) >= 4 and bbox[1] >= y_threshold`.  Note the source
accepts any bbox with **at least** 4 entries. -/
def moveCond (y_threshold : ℚ) (b : Block) : Bool :=
  match b.bbox with
  | none => false
  | some bx => !bx.isEmpty && decide (4 ≤ bx.length) && decide (y_threshold ≤ bx.getD 1 0)

/-- The per-block loop of the mover (reprocess_discarded.py lines 152-172):
returns `(blocks_to_move, remaining_discarded)` in iteration order. -/
def classify (y_threshold : ℚ) : List Block → List Block × List Block
  | [] => ([], [])
  | b :: rest =>
    let p := classify y_threshold rest
    if moveCond y_threshold b then
      match convert_to_para_block_format b with
      | some converted => (converted :: p.1, p.2)
      | none => (p.1, b :: p.2)
    else (p.1, b :: p.2)

/-- The per-page body of `reprocess_middle_interactive`'s processing loop
(reprocess_discarded.py lines 134-179), for one page and the interactive
`bottom_threshold_percent`: guard on a usable `page_size`, compute
`y_threshold = page_height * (1 - percent/100)`, skip pages without a
`discarded_blocks` list, default a missing `para_blocks` to `[]`, and move the
qualifying discarded blocks to the end of `para_blocks`. -/
def reprocess_page (bottom_threshold_percent : ℚ) (page_data : Page) : Page :=
  let threshold_ratio : ℚ := 1 - bottom_threshold_percent / 100
  match page_data.page_size with
  | none => page_data
  | some ps =>
    if ps.isEmpty || ps.length < 2 then page_data
    else
      let page_height := ps.getD 1 0
      let y_threshold := page_height * threshold_ratio
      match page_data.discarded_blocks with
      | none => page_data
      | some discarded_blocks =>
        let page1 :=
          match page_data.para_blocks with
          | none => { page_data with para_blocks := some [] }
          | some _ => page_data
        let para_blocks := page1.para_blocks.getD []
        let moved := classify y_threshold discarded_blocks
        if moved.1.isEmpty then page1
        else { page1 with
                para_blocks := some (para_blocks ++ moved.1)
                discarded_blocks := some moved.2 }

/- ============== Page/Footnote Orchestrator (footnotes2mineru.py 340-660) ============== -/

/-- One fold step of `TextProcessor.extract_text_from_spans` (footnotes2mineru.py
lines 25-35).  The source indexes `span['type']` unconditionally and
`span['content']` on the text / inline-equation branches; a missing key raises
`KeyError` and aborts the caller, modelled by `none`. -/
def extractSpanStep (text : Option (List Char)) (s : Span) : Option (List Char) :=
  match text with
  | none => none
  | some acc =>
    match s.type with
    | none => none
    | some ty =>
      if ty = "text".toList then
        match s.content with
        | none => none
        | some c => some (acc ++ c)
      else if ty = "inline_equation".toList then
        match s.content with
        | none => none
        | some content => some (acc ++ '$' :: (content ++ ['$']))
      else some acc

/-- Embeds `TextProcessor.extract_text_from_spans` (lines 25-35): concatenate
text spans verbatim and inline-equation spans wrapped in `$`; `none` when some
required span key is absent. -/
def extract_text_from_spans (spans : List Span) : Option (List Char) :=
  spans.foldl extractSpanStep (some [])

/-- The block types recognized as context anchors (lines 369 and 491). -/
def recognizedTypes : List (List Char) :=
  ["text".toList, "table_body".toList, "table_caption".toList, "table_footnote".toList]

/-- The text of one line of a `text` block: the source indexes `line['spans']`
directly (lines 372 and 494), so a line without `spans` raises `KeyError`. -/
def lineSpansText (l : Line) : Option (List Char) :=
  match l.spans with
  | none => none
  | some sp => extract_text_from_spans sp

/-- Sequences a list of fallible strings: `none` as soon as one entry is `none`
(the first raised exception aborts the whole comprehension). -/
def seqStrings : List (Option (List Char)) → Option (List (List Char))
  | [] => some []
  | none :: _ => none
  | some x :: rest => (seqStrings rest).map (fun r => x :: r)

/-- The per-block text used for anchoring (lines 370-380 and 492-500): a
`text` block joins the text of all its lines with newlines (KeyError when
`lines` or a line's `spans` is absent); a `table*` block does the same over
the lines with a truthy `spans`; other types contribute nothing.  The caller
has already established that `type` is present. -/
def blockTextOf (b : Block) : Option (List Char) :=
  if b.type = some "text".toList then
    match b.lines with
    | none => none
    | some ls => (seqStrings (ls.map lineSpansText)).map joinNL
  else if "table".toList.isPrefixOf (b.type.getD []) then
    match b.lines with
    | none => none
    | some ls =>
      (seqStrings ((ls.filter (fun l => l.spans != none && l.spans != some [])).map
        (fun l => extract_text_from_spans (l.spans.getD [])))).map joinNL
  else some []

/-- One entry of `self.page_contexts` (lines 389-393). -/
structure PageContext where
  text : List Char
  bbox : List ℚ
  type : Option (List Char)
deriving DecidableEq

/-- One entry of `self.page_info` (lines 352-356). -/
structure PageInfo where
  height : ℚ
  para_blocks : List Block
  discarded_blocks : List Block
deriving DecidableEq

/-- The last-content-block scan of `preprocess_pages`, one block (lines 364-386).
The source first computes `block['bbox'][3]` — `KeyError` when `bbox` is
absent, `IndexError` when it has fewer than 4 entries — then evaluates
`block['type'] in [...]` (`KeyError` when `type` is absent); each exception
aborts the whole preprocessing run, modelled by `none`.  Otherwise keep the
recognized-type block with the greatest bottom edge whose extracted text is
non-blank, together with that `max_y`. -/
def lastBlockStep (st : Option PageContext × ℚ) (b : Block) :
    Option (Option PageContext × ℚ) :=
  match b.bbox with
  | none => none
  | some bx =>
    if bx.length < 4 then none
    else
      let block_bottom := bx.getD 3 0
      match b.type with
      | none => none
      | some ty =>
        if ty ∈ recognizedTypes && decide (st.2 < block_bottom) then
          match blockTextOf b with
          | none => none
          | some block_text =>
            if !(pyStrip block_text).isEmpty then
              some (some { text := block_text, bbox := bx, type := some ty }, block_bottom)
            else some st
        else some st

/-- The last-content-block scan over a whole `para_blocks` list: thread the
fold state through `lastBlockStep`, aborting on the first exception. -/
def scanLastBlock : (Option PageContext × ℚ) → List Block → Option (Option PageContext × ℚ)
  | st, [] => some st
  | st, b :: rest =>
    match lastBlockStep st b with
    | none => none
    | some st' => scanLastBlock st' rest

/-- Embeds `FootnoteProcessor.preprocess_pages` (lines 340-397), carrying the running
page index: pages with a `page_size` contribute a `PageInfo` entry and, when a
last content block is found, a `page_contexts` entry keyed by page index.
Pages without `page_size` contribute neither (the resulting index misalignment
between `page_info` positions and page indices is inherited from the source).
The source reads `page['page_size'][1]` (IndexError when `page_size` has fewer
than 2 entries) and scans the blocks with raising accesses; any exception
aborts preprocessing, modelled by `none`. -/
def preprocess_pages : List Page → Nat → Option (List PageInfo × List (Nat × PageContext))
  | [], _ => some ([], [])
  | page :: rest, page_idx =>
    match page.page_size with
    | none => preprocess_pages rest (page_idx + 1)
    | some ps =>
      if ps.length < 2 then none
      else
        match scanLastBlock (none, -1) (page.para_blocks.getD []) with
        | none => none
        | some st =>
          match preprocess_pages rest (page_idx + 1) with
          | none => none
          | some tail =>
            let info : PageInfo :=
              { height := ps.getD 1 0
                para_blocks := page.para_blocks.getD []
                discarded_blocks := page.discarded_blocks.getD [] }
            match st.1 with
            | none => some (info :: tail.1, tail.2)
            | some ctx => some (info :: tail.1, (page_idx, ctx) :: tail.2)

/-- A collected footnote candidate; only the fields `process_pages` /
`process_unmatched_pages` read (`text` and `page`) are modelled. -/
structure Footnote where
  text : List Char
  page : Nat
deriving DecidableEq

/-- The page marker fragment `f'\n\n```page\n第{n + 1}页\n```\n\n'`
(lines 536 and 627). -/
def pageMark (page_idx : Nat) : List Char :=
  "\n\n```page\n第".toList ++ Nat.toDigits 10 (page_idx + 1) ++ "页\n```\n\n".toList

/-- The footnote fragment `f'\n```footnote\n{text}\n```\n'` (lines 551 and 640). -/
def footnoteMark (text : List Char) : List Char :=
  "\n```footnote\n".toList ++ text ++ "\n```\n".toList

/-- The `mark_text` built for one page (lines 538-567 and 628-655): in
per-page insertion mode, the page's footnote fragments followed by the page
marker; otherwise just the page marker. -/
def marksFor (insert_by_page : Bool) (footnotes : List Footnote) (page_idx : Nat) :
    List Char :=
  if insert_by_page then
    ((footnotes.filter (fun f => f.page == page_idx)).map
        (fun f => footnoteMark f.text)).flatten ++ pageMark page_idx
  else pageMark page_idx

/-- The candidate `(block_text, y)` collection of one page in `process_pages`
(lines 490-502).  The source reads `block['type']` for every block (`KeyError`
when absent), extracts the text (its own raising accesses), and — only when
the stripped text is non-blank — appends `(block_text, block['bbox'][3])`
(`KeyError`/`IndexError` when `bbox` is absent or shorter than 4); each
exception aborts the run, modelled by `none`. -/
def collectPageBlocks : List Block → Option (List (List Char × ℚ))
  | [] => some []
  | b :: rest =>
    match b.type with
    | none => none
    | some ty =>
      if ty ∈ recognizedTypes then
        match blockTextOf b with
        | none => none
        | some block_text =>
          if !(pyStrip block_text).isEmpty then
            match b.bbox with
            | none => none
            | some bx =>
              if bx.length < 4 then none
              else (collectPageBlocks rest).map (fun r => (block_text, bx.getD 3 0) :: r)
          else collectPageBlocks rest
      else collectPageBlocks rest

/-- The candidate `(block_text, y)` pairs of one page, sorted by `y` descending
(line 504, Python's stable in-place sort). -/
def pageBlocksOf (info : PageInfo) : Option (List (List Char × ℚ)) :=
  (collectPageBlocks info.para_blocks).map (sortDescBy Prod.snd)

/-- The trailing loop of the matching cascade (lines 526-532). -/
def tryLoop (official_md : List Char) : List (List Char × ℚ) → Int
  | [] => -1
  | b :: rest =>
    let ip := find_insertion_point official_md b.1
    if ip != -1 then ip else tryLoop official_md rest

/-- The matching cascade of `process_pages` (lines 507-532): try the last
block, then the second-to-last, then the remaining blocks in order; `-1` when
everything fails (or there are no blocks). -/
def tryBlocksFirst (official_md : List Char) : List (List Char × ℚ) → Int
  | [] => -1
  | b0 :: rest0 =>
    let ip0 := find_insertion_point official_md b0.1
    if ip0 != -1 then ip0
    else
      match rest0 with
      | [] => -1
      | b1 :: rest1 =>
        let ip1 := find_insertion_point official_md b1.1
        if ip1 != -1 then ip1 else tryLoop official_md rest1

/-- The mutable state threaded through `process_pages` (lines 479-482):
`insert_points`, `processed_pages` (a Python set, modelled as the list of
added elements), `matched_points` (a dict, modelled as an assoc list whose
most recent binding wins), and `unmatched_pages` (a Python set). -/
structure PPState where
  insert_points : List (Int × List Char)
  processed_pages : List Nat
  matched_points : List (Nat × Int)
  unmatched_pages : List Nat
deriving DecidableEq

/-- One iteration of the `process_pages` page loop (lines 485-578).  For a page
with a context the source indexes `self.page_info[current_page]` (line 490);
when a page lacking `page_size` precedes this page, `page_info` is shorter
than the page index and the access raises `IndexError`, aborting the whole
run — modelled by `none`, as are the raising block accesses inside the
collection. -/
def processPageStep (official_md : List Char) (page_info : List PageInfo)
    (page_contexts : List (Nat × PageContext)) (insert_by_page : Bool)
    (footnotes : List Footnote) (st : PPState) (current_page : Nat) : Option PPState :=
  match page_contexts.lookup current_page with
  | none => some st
  | some _ =>
    match page_info[current_page]? with
    | none => none
    | some info =>
      match pageBlocksOf info with
      | none => none
      | some page_blocks =>
        let insert_point := tryBlocksFirst official_md page_blocks
        if insert_point != -1 then
          some { st with
                  insert_points :=
                    st.insert_points
                      ++ [(insert_point, marksFor insert_by_page footnotes current_page)]
                  processed_pages := st.processed_pages ++ [current_page]
                  matched_points := (current_page, insert_point) :: st.matched_points }
        else some { st with unmatched_pages := st.unmatched_pages ++ [current_page] }

/-- The `process_pages` page loop over a list of page indices, threading the
state and aborting on the first exception. -/
def processPagesLoop (official_md : List Char) (page_info : List PageInfo)
    (page_contexts : List (Nat × PageContext)) (insert_by_page : Bool)
    (footnotes : List Footnote) : List Nat → PPState → Option PPState
  | [], st => some st
  | q :: rest, st =>
    match processPageStep official_md page_info page_contexts insert_by_page footnotes st q with
    | none => none
    | some st' =>
      processPagesLoop official_md page_info page_contexts insert_by_page footnotes rest st'

/-- Embeds `FootnoteProcessor.process_pages` (lines 475-580): walk the pages in index
order, anchoring each page that has a context; `none` when some page's
processing raises. -/
def process_pages (official_md : List Char) (page_info : List PageInfo)
    (page_contexts : List (Nat × PageContext)) (insert_by_page : Bool)
    (footnotes : List Footnote) (total_pages : Nat) (unmatched_pages : List Nat)
    (matched_points : List (Nat × Int)) : Option PPState :=
  processPagesLoop official_md page_info page_contexts insert_by_page footnotes
    (List.range total_pages) ⟨[], [], matched_points, unmatched_pages⟩

/-- The backwards scan `for i in range(page_idx - 1, -1, -1)` (lines 595-598):
nearest smaller index present in `matched_points`. -/
def findPrev (matched_points : List (Nat × Int)) : Nat → Option Nat
  | 0 => none
  | i + 1 => if (matched_points.lookup i).isSome then some i else findPrev matched_points i

/-- The forwards scan `for i in range(page_idx + 1, total_pages)`
(lines 601-604), expressed with an explicit remaining count. -/
def findNextAux (matched_points : List (Nat × Int)) : Nat → Nat → Option Nat
  | _, 0 => none
  | j, k + 1 =>
    if (matched_points.lookup j).isSome then some j else findNextAux matched_points (j + 1) k

/-- Nearest larger index below `total_pages` present in `matched_points`. -/
def findNext (matched_points : List (Nat × Int)) (total_pages page_idx : Nat) : Option Nat :=
  findNextAux matched_points (page_idx + 1) (total_pages - (page_idx + 1))

/-- One iteration of `process_unmatched_pages` (lines 590-658): place the page
at the midpoint of its matched neighbours, at `±1` of a single neighbour, or
at the document end, then record it in `matched_points`.  `Int.fdiv` models
Python's floor division `//`. -/
def resolveStep (official_md : List Char) (insert_by_page : Bool)
    (footnotes : List Footnote) (total_pages : Nat)
    (st : List (Int × List Char) × List (Nat × Int)) (page_idx : Nat) :
    List (Int × List Char) × List (Nat × Int) :=
  let matched := st.2
  let insert_point : Int :=
    match findPrev matched page_idx, findNext matched total_pages page_idx with
    | some prev_page, some next_page =>
      let prev_point := (matched.lookup prev_page).getD 0
      let next_point := (matched.lookup next_page).getD 0
      prev_point + (next_point - prev_point).fdiv 2
    | some prev_page, none => (matched.lookup prev_page).getD 0 + 1
    | none, some next_page => (matched.lookup next_page).getD 0 - 1
    | none, none => (official_md.length : Int)
  (st.1 ++ [(insert_point, marksFor insert_by_page footnotes page_idx)],
   (page_idx, insert_point) :: st.2)

/-- Embeds `FootnoteProcessor.process_unmatched_pages` (lines 582-660): process the
unmatched pages from highest index to lowest. -/
def process_unmatched_pages (official_md : List Char) (insert_by_page : Bool)
    (footnotes : List Footnote) (total_pages : Nat) (unmatched_pages : List Nat)
    (matched_points : List (Nat × Int)) : List (Int × List Char) × List (Nat × Int) :=
  if unmatched_pages.isEmpty then ([], matched_points)
  else
    (sortDescBy id unmatched_pages).foldl
      (resolveStep official_md insert_by_page footnotes total_pages)
      ([], matched_points)

/-- Steps 1, 3 and 4 of `FootnoteProcessor.process` (lines 760-770): preprocess
the pages, anchor the pages with contexts, then resolve the unmatched ones.
The collected footnote list (step 2) is passed in as a parameter.  Returns the
phase-1 state together with phase 2's insertion points and final
`matched_points`; `none` when either phase raises an uncaught exception, in
which case the run produces no output at all. -/
def run_phases (pdf_info : List Page) (official_md : List Char) (insert_by_page : Bool)
    (footnotes : List Footnote) :
    Option (PPState × (List (Int × List Char) × List (Nat × Int))) :=
  match preprocess_pages pdf_info 0 with
  | none => none
  | some pre =>
    match process_pages official_md pre.1 pre.2 insert_by_page footnotes
        pdf_info.length [] [] with
    | none => none
    | some st =>
      some (st, process_unmatched_pages official_md insert_by_page footnotes
        pdf_info.length st.unmatched_pages st.matched_points)

/- ============== Concrete inputs used in witnesses and counterexamples ============== -/

/-- A page record with every field absent. -/
def emptyPage : Page :=
  { preproc_blocks := none, layout_bboxes := none, page_idx := none, page_size := none
    layout_tree := none, images := none, tables := none, interline_equations := none
    discarded_blocks := none, para_blocks := none, need_drop := none, drop_reason := none }

/-- A discarded block whose bbox has five entries (top edge 760). -/
def blkFive : Block :=
  { type := none, bbox := some [50, 760, 560, 780, 0], lines := some []
    text := none, content := none, caption := none, description := none }

/-- A discarded block with a standard four-entry bbox (top edge 760). -/
def blkFour : Block :=
  { type := none, bbox := some [50, 760, 560, 780], lines := some []
    text := none, content := none, caption := none, description := none }

/-- A letter-size page whose only discarded block has a five-entry bbox. -/
def pageFive : Page :=
  { emptyPage with page_size := some [612, 792]
                   discarded_blocks := some [blkFive], para_blocks := some [] }

/-- A letter-size page whose only discarded block has a four-entry bbox. -/
def pageFour : Page :=
  { emptyPage with page_size := some [612, 792]
                   discarded_blocks := some [blkFour], para_blocks := some [] }

/-- A page whose `page_size` has three entries. -/
def pageSize3 : Page := { emptyPage with page_size := some [5, 5, 5] }

/-- A well-formed page with no text blocks at all: it gets no anchor context. -/
def pageNoCtx : Page :=
  { emptyPage with page_size := some [612, 792]
                   para_blocks := some [], discarded_blocks := some [] }

/-- A span/line/block carrying the text `hello`. -/
def spanHello : Span :=
  { type := some "text".toList, content := some "hello".toList, bbox := some [0, 0, 10, 20] }

/-- See `spanHello`. -/
def lineHello : Line := { spans := some [spanHello], bbox := some [0, 0, 10, 20] }

/-- See `spanHello`. -/
def blkHello : Block :=
  { type := some "text".toList, bbox := some [0, 0, 10, 20], lines := some [lineHello]
    text := none, content := none, caption := none, description := none }

/-- A page whose single paragraph block says `hello`: it gets an anchor context. -/
def pageHello : Page :=
  { emptyPage with page_size := some [612, 792]
                   para_blocks := some [blkHello], discarded_blocks := some [] }

/- ============== Lemmas: text utilities ============== -/

theorem mem_stripWs_not_space {s : List Char} {c : Char} (h : c ∈ stripWs s) :
    isSpace c = false := by
  have := (List.mem_filter.mp h).2
  simpa using this

theorem stripWs_of_no_space {s : List Char} (h : ∀ c ∈ s, isSpace c = false) :
    stripWs s = s := by
  apply List.filter_eq_self.mpr
  intro c hc
  simp [h c hc]

theorem stripWs_idem (s : List Char) : stripWs (stripWs s) = stripWs s :=
  stripWs_of_no_space (fun _ hc => mem_stripWs_not_space hc)

theorem stripWs_append (a b : List Char) : stripWs (a ++ b) = stripWs a ++ stripWs b :=
  List.filter_append a b

theorem nonWsCount_cons (c : Char) (l : List Char) :
    nonWsCount (c :: l) = if isSpace c then nonWsCount l else nonWsCount l + 1 := by
  by_cases h : isSpace c <;>
    simp [nonWsCount, stripWs, List.filter_cons, h]

theorem mapBack_le (md : List Char) : ∀ k, mapBack md k ≤ md.length := by
  induction md with
  | nil => intro k; cases k <;> simp [mapBack]
  | cons c rest ih =>
    intro k
    cases k with
    | zero => simp [mapBack]
    | succ k =>
      by_cases h : isSpace c
      · have := ih (k + 1); simp [mapBack, h]; omega
      · have := ih k; simp [mapBack, h]; omega

theorem mapBack_count (md : List Char) :
    ∀ k, k < nonWsCount md → nonWsCount (md.take (mapBack md k)) = k := by
  induction md with
  | nil => intro k hk; simp [nonWsCount, stripWs] at hk
  | cons c rest ih =>
    intro k hk
    cases k with
    | zero => simp [mapBack, nonWsCount, stripWs]
    | succ k =>
      rw [nonWsCount_cons] at hk
      by_cases h : isSpace c
      · rw [if_pos h] at hk
        have h1 := ih (k + 1) hk
        simp only [mapBack, if_pos h, Nat.add_comm 1]
        rw [List.take_succ_cons, nonWsCount_cons, if_pos h]
        exact h1
      · rw [if_neg h] at hk
        have h1 := ih k (by omega)
        simp only [mapBack, if_neg h, Nat.add_comm 1]
        rw [List.take_succ_cons, nonWsCount_cons, if_neg h, h1]

theorem mapBack_min (md : List Char) :
    ∀ k, k < nonWsCount md → ∀ j < mapBack md k, nonWsCount (md.take j) ≠ k := by
  induction md with
  | nil => intro k hk; simp [nonWsCount, stripWs] at hk
  | cons c rest ih =>
    intro k hk
    cases k with
    | zero => intro j hj; simp [mapBack] at hj
    | succ k =>
      rw [nonWsCount_cons] at hk
      intro j hj
      by_cases h : isSpace c
      · rw [if_pos h] at hk
        simp only [mapBack, if_pos h] at hj
        cases j with
        | zero => simp [nonWsCount, stripWs]
        | succ j =>
          rw [List.take_succ_cons, nonWsCount_cons, if_pos h]
          exact ih (k + 1) hk j (by omega)
      · rw [if_neg h] at hk
        simp only [mapBack, if_neg h] at hj
        cases j with
        | zero => simp [nonWsCount, stripWs]
        | succ j =>
          rw [List.take_succ_cons, nonWsCount_cons, if_neg h]
          have := ih k (by omega) j (by omega)
          omega

theorem findSub_eq_some_iff (pat : List Char) :
    ∀ (hay : List Char) (k : Nat),
      findSub pat hay = some k ↔
        (pat <+: hay.drop k ∧ ∀ j < k, ¬ pat <+: hay.drop j) := by
  intro hay
  induction hay with
  | nil =>
    intro k
    by_cases hp : pat.isEmpty
    · have hpe : pat = [] := by simpa using hp
      subst hpe
      constructor
      · intro h
        simp [findSub] at h
        subst h
        simp
      · rintro ⟨-, h2⟩
        rcases Nat.eq_zero_or_pos k with rfl | hk
        · simp [findSub]
        · exact absurd List.nil_prefix (h2 0 hk)
    · have hpe : pat ≠ [] := by simpa using hp
      simp only [findSub, if_neg hp]
      constructor
      · intro h; exact absurd h (by simp)
      · rintro ⟨h1, -⟩
        rw [List.drop_nil] at h1
        exact absurd (List.prefix_nil.mp h1) hpe
  | cons c t ih =>
    intro k
    by_cases hp : pat.isPrefixOf (c :: t)
    · have hp' : pat <+: (c :: t) := List.isPrefixOf_iff_prefix.mp hp
      simp only [findSub, if_pos hp]
      constructor
      · intro h
        have hk : k = 0 := by simpa using h.symm
        subst hk
        exact ⟨by simpa using hp', by omega⟩
      · rintro ⟨h1, h2⟩
        rcases Nat.eq_zero_or_pos k with rfl | hk
        · rfl
        · exact absurd (by simpa using hp') (h2 0 hk)
    · have hp' : ¬ pat <+: (c :: t) := fun h => hp <| List.isPrefixOf_iff_prefix.mpr h
      simp only [findSub, if_neg hp]
      cases k with
      | zero =>
        constructor
        · intro h
          rcases Option.map_eq_some'.mp h with ⟨a, -, ha⟩
          omega
        · rintro ⟨h1, -⟩
          exact absurd (by simpa using h1) hp'
      | succ k =>
        rw [List.drop_succ_cons]
        constructor
        · intro h
          rcases Option.map_eq_some'.mp h with ⟨a, ha, hak⟩
          have hak' : a = k := by omega
          rw [hak'] at ha
          rcases (ih k).mp ha with ⟨h1, h2⟩
          refine ⟨h1, ?_⟩
          intro j hj
          cases j with
          | zero => simpa using hp'
          | succ j =>
            rw [List.drop_succ_cons]
            exact h2 j (by omega)
        · rintro ⟨h1, h2⟩
          have hsub : findSub pat t = some k := by
            apply (ih k).mpr
            refine ⟨h1, ?_⟩
            intro j hj
            have := h2 (j + 1) (by omega)
            rwa [List.drop_succ_cons] at this
          simp [hsub]

theorem wordsAux_no_space :
    ∀ (l : List Char), (∀ c ∈ l, isSpace c = false) →
      ∀ cur : List Char,
        wordsAux cur l = if (cur.reverse ++ l).isEmpty then [] else [cur.reverse ++ l] := by
  intro l
  induction l with
  | nil =>
    intro _ cur
    cases cur <;> simp [wordsAux]
  | cons c rest ih =>
    intro h cur
    have hc : isSpace c = false := h c (by simp)
    simp only [wordsAux, hc, Bool.false_eq_true, if_false]
    rw [ih (fun d hd => h d (by simp [hd])) (c :: cur)]
    simp

theorem pySplitWs_no_space {l : List Char} (h : ∀ c ∈ l, isSpace c = false)
    (hne : l ≠ []) : pySplitWs l = [l] := by
  unfold pySplitWs
  rw [wordsAux_no_space l h []]
  simp [hne]

theorem foldl_min_mem : ∀ (xs : List Nat) (x : Nat), xs.foldl Nat.min x ∈ x :: xs := by
  intro xs
  induction xs with
  | nil => intro x; simp
  | cons y ys ih =>
    intro x
    simp only [List.foldl_cons]
    rcases List.mem_cons.mp (ih (Nat.min x y)) with h | h
    · rw [h]
      have hor : Nat.min x y = x ∨ Nat.min x y = y := by
        rcases Nat.le_total x y with hxy | hxy
        · exact Or.inl (Nat.min_eq_left hxy)
        · exact Or.inr (Nat.min_eq_right hxy)
      rcases hor with h' | h' <;> simp [h']
    · simp [h]

theorem minList_mem {l : List Nat} (h : l ≠ []) : minList l ∈ l := by
  match l with
  | x :: xs =>
    simpa [minList] using foldl_min_mem xs x

/- ============== Lemmas: locator strategies ============== -/

theorem step2_le {md hay t : List Char} {i : Nat} (h : step2 md hay t = some i) :
    i ≤ md.length := by
  simp only [step2] at h
  split at h
  · split at h
    · exact absurd h (by simp)
    · split at h
      · rename_i idx _
        rw [← Option.some.inj h]
        exact mapBack_le md idx
      · exact absurd h (by simp)
  · exact absurd h (by simp)

theorem step3_le (md hay t : List Char) : step3 md hay t ≤ md.length := by
  simp only [step3]
  split
  · exact Nat.le_refl _
  · split
    · exact Nat.le_refl _
    · rename_i hne
      have hmem := minList_mem (l := (sortDescBy List.length
          ((pySplitWs t).filter (fun w => 2 < w.length))).take 3 |>.filterMap
          (fun keyword => (findSub (stripWs keyword) hay).map (mapBack md)))
        (by simpa using hne)
      rcases List.mem_filterMap.mp hmem with ⟨kw, -, hkw⟩
      rcases Option.map_eq_some'.mp hkw with ⟨idx, -, hidx⟩
      rw [← hidx]
      exact mapBack_le md idx

theorem step3_eq_length {md t' : List Char} (hw : ∀ c ∈ t', isSpace c = false)
    (hne : t' ≠ []) (hn : findSub t' (stripWs md) = none) :
    step3 md (stripWs md) t' = md.length := by
  simp only [step3]
  rw [pySplitWs_no_space hw hne]
  by_cases hlen : 2 < t'.length
  · have hd : (decide (2 < t'.length)) = true := by simpa using hlen
    simp only [List.filter_cons, List.filter_nil, hd, if_true]
    simp [sortDescBy, insertDescBy, stripWs_of_no_space hw, hn]
  · simp [List.filter_cons, hlen]

/- ============== C1: exact whitespace-insensitive anchoring ============== -/

/-- C1: for every haystack and target whose whitespace-stripped form is
non-empty and first occurs as a contiguous substring of the stripped haystack
at stripped offset `k`, `find_insertion_point` returns the smallest index `i`
such that the number of non-whitespace characters of `haystack[0:i]` equals
`k`; consequently `haystack[i:]` begins with a whitespace-normalized match of
the target. -/
theorem find_insertion_point_exact (md target : List Char) (k : Nat)
    (hne : stripWs target ≠ [])
    (hk : stripWs target <+: (stripWs md).drop k)
    (hmin : ∀ j < k, ¬ stripWs target <+: (stripWs md).drop j) :
    ∃ i : Nat, find_insertion_point md target = (i : Int) ∧
      nonWsCount (md.take i) = k ∧
      (∀ j < i, nonWsCount (md.take j) ≠ k) ∧
      stripWs target <+: stripWs (md.drop i) := by
  have hfind : findSub (stripWs target) (stripWs md) = some k :=
    (findSub_eq_some_iff _ _ _).mpr ⟨hk, hmin⟩
  have hklt : k < nonWsCount md := by
    have h1 : (stripWs target).length ≤ ((stripWs md).drop k).length := hk.length_le
    have h2 : 0 < (stripWs target).length := List.length_pos.mpr hne
    have h3 : ((stripWs md).drop k).length = (stripWs md).length - k :=
      List.length_drop _ _
    unfold nonWsCount
    omega
  have hdrop : (stripWs md).drop k = stripWs (md.drop (mapBack md k)) := by
    have hcount : (stripWs (md.take (mapBack md k))).length = k := mapBack_count md k hklt
    have hsplit : stripWs md =
        stripWs (md.take (mapBack md k)) ++ stripWs (md.drop (mapBack md k)) := by
      conv_lhs => rw [← List.take_append_drop (mapBack md k) md]
      exact stripWs_append _ _
    have hdl := List.drop_left (stripWs (md.take (mapBack md k)))
      (stripWs (md.drop (mapBack md k)))
    rw [hcount] at hdl
    rw [hsplit, hdl]
  refine ⟨mapBack md k, ?_, mapBack_count md k hklt, mapBack_min md k hklt, ?_⟩
  · simp only [find_insertion_point]
    rw [if_neg (by simpa using hne), hfind]
  · rwa [← hdrop]

/-- C1 witness: on haystack `ABCDEF` and target `CDE` (stripped offset 2),
the locator returns 2. -/
theorem find_insertion_point_exact_witness :
    find_insertion_point (String.toList "ABCDEF") (String.toList "CDE") = (2 : Int) := by
  obtain ⟨i, h1, h2, h3, -⟩ :=
    find_insertion_point_exact (String.toList "ABCDEF") (String.toList "CDE") 2
      (by decide) (by decide) (by decide)
  have hi : i = 2 := by
    by_contra hne2
    rcases Nat.lt_or_ge i 2 with hlt | hge
    · interval_cases i <;> revert h2 <;> decide
    · exact h3 2 (by omega) (by decide)
  rw [hi] at h1
  exact h1

/- ============== C8: sentinel behaviour of the locator ============== -/

/-- C8: `find_insertion_point` returns the no-match sentinel `-1` when the
whitespace-stripped target is empty; and when the whole-target whitespace-
insensitive search fails and the segment strategy fails (`step2 = none`), it
returns the haystack's length (the keyword strategy necessarily fails too,
since after whitespace-stripping the only keyword is the whole target, which
already failed). -/
theorem find_insertion_point_sentinels (md target : List Char) :
    (stripWs target = [] → find_insertion_point md target = -1) ∧
    (stripWs target ≠ [] →
      findSub (stripWs target) (stripWs md) = none →
      step2 md (stripWs md) (stripWs target) = none →
      find_insertion_point md target = (md.length : Int)) := by
  constructor
  · intro h
    simp [find_insertion_point, h]
  · intro h1 h2 h3
    simp only [find_insertion_point]
    rw [if_neg (by simpa using h1), h2, h3]
    have hs := @step3_eq_length md (stripWs target)
      (fun _ hc => mem_stripWs_not_space hc) h1 h2
    show ((step3 md (stripWs md) (stripWs target) : Nat) : Int) = (md.length : Int)
    exact_mod_cast hs

/-- C8 witness: haystack `ABCDEF` with absent target `XYZ` yields the
document length 6; a whitespace-only target yields `-1`. -/
theorem find_insertion_point_sentinels_witness :
    find_insertion_point (String.toList "ABCDEF") (String.toList "XYZ") = (6 : Int) ∧
    find_insertion_point (String.toList "ABCDEF") (String.toList " ") = -1 := by
  constructor
  · have := (find_insertion_point_sentinels (String.toList "ABCDEF")
      (String.toList "XYZ")).2 (by decide) (by decide) (by decide)
    simpa using this
  · exact (find_insertion_point_sentinels (String.toList "ABCDEF")
      (String.toList " ")).1 (by decide)

/- ============== C10: failure sentinel reachability and range safety ============== -/

/-- C10: `find_insertion_point` returns `-1` if and only if the whitespace-
stripped target is empty, and for every non-empty stripped target the result
is a natural offset bounded by the haystack's length (so every splice built
from it is in range and the `-1` branch at the call sites is unreachable). -/
theorem find_insertion_point_range (md target : List Char) :
    (find_insertion_point md target = -1 ↔ stripWs target = []) ∧
    (stripWs target ≠ [] →
      ∃ o : Nat, find_insertion_point md target = (o : Int) ∧ o ≤ md.length) := by
  by_cases ht : stripWs target = []
  · refine ⟨⟨fun _ => ht, fun _ => by simp [find_insertion_point, ht]⟩, fun h => absurd ht h⟩
  · have hex : ∃ o : Nat, find_insertion_point md target = (o : Int) ∧ o ≤ md.length := by
      simp only [find_insertion_point]
      rw [if_neg (by simpa using ht)]
      cases hfs : findSub (stripWs target) (stripWs md) with
      | some idx => exact ⟨mapBack md idx, rfl, mapBack_le md idx⟩
      | none =>
        cases h2 : step2 md (stripWs md) (stripWs target) with
        | some i => exact ⟨i, rfl, step2_le h2⟩
        | none => exact ⟨step3 md (stripWs md) (stripWs target), rfl, step3_le md _ _⟩
    refine ⟨⟨fun hm1 => ?_, fun h => absurd h ht⟩, fun _ => hex⟩
    exfalso
    rcases hex with ⟨o, ho, -⟩
    rw [ho] at hm1
    omega

/-- C10 witness: on haystack `AB` and target `B` the locator does not return
the failure sentinel. -/
theorem find_insertion_point_range_witness :
    find_insertion_point (String.toList "AB") (String.toList "B") ≠ -1 := by
  obtain ⟨o, ho, -⟩ :=
    (find_insertion_point_range (String.toList "AB") (String.toList "B")).2 (by decide)
  rw [ho]
  omega

/- ============== C9: the footnote filter excludes separator-wrapped numbers ============== -/

/-- C9: any text that, after trimming surrounding whitespace, is non-empty,
contains at least one digit, and consists only of digits and the separator
glyph `·`, is excluded by `should_exclude_footnote` (the digit check re-runs
after stripping the glyph, so pure digits and glyph-wrapped digits both hit
the first rule). -/
theorem should_exclude_footnote_digits (text : List Char)
    (_h1 : pyStrip text ≠ [])
    (h2 : ∀ c ∈ pyStrip text, c.isDigit = true ∨ c = '·')
    (h3 : ∃ c ∈ pyStrip text, c.isDigit = true) :
    should_exclude_footnote text = true := by
  have hfilter : pyIsDigit ((pyStrip text).filter (fun c => c != '·')) = true := by
    unfold pyIsDigit
    rcases h3 with ⟨c, hc, hcd⟩
    have hcne : (c != '·') = true := by
      have hne' : c ≠ '·' := by
        intro hceq
        rw [hceq] at hcd
        exact absurd hcd (by decide)
      simpa using hne'
    rw [Bool.and_eq_true]
    constructor
    · have hmem : c ∈ (pyStrip text).filter (fun c => c != '·') :=
        List.mem_filter.mpr ⟨hc, hcne⟩
      have := List.ne_nil_of_mem hmem
      simpa [List.isEmpty_iff] using this
    · apply List.all_eq_true.mpr
      intro x hx
      rcases List.mem_filter.mp hx with ⟨hx1, hx2⟩
      rcases h2 x hx1 with hd | heq
      · simpa using hd
      · rw [heq] at hx2
        simp at hx2
  simp [should_exclude_footnote, hfilter]

/-- C9 witness: the decorated page number `·418·` is excluded. -/
theorem should_exclude_footnote_digits_witness :
    should_exclude_footnote (String.toList " ·418· ") = true :=
  should_exclude_footnote_digits (String.toList " ·418· ")
    (by decide) (by decide) (by decide)

/- ============== Lemmas: stable descending sort ============== -/

theorem mem_insertDescBy {α β : Type} [LinearOrder β] (key : α → β) (x a : α) :
    ∀ l, a ∈ insertDescBy key x l ↔ a = x ∨ a ∈ l := by
  intro l
  induction l with
  | nil => simp [insertDescBy]
  | cons y ys ih =>
    simp only [insertDescBy]
    split
    · simp only [List.mem_cons, ih]
      tauto
    · simp

theorem insertDescBy_perm {α β : Type} [LinearOrder β] (key : α → β) (x : α) :
    ∀ l, (insertDescBy key x l).Perm (x :: l) := by
  intro l
  induction l with
  | nil => exact List.Perm.refl _
  | cons y ys ih =>
    simp only [insertDescBy]
    split
    · exact (ih.cons y).trans (List.Perm.swap x y ys)
    · exact List.Perm.refl _

theorem sortDescBy_perm {α β : Type} [LinearOrder β] (key : α → β) :
    ∀ l, (sortDescBy key l).Perm l := by
  intro l
  induction l with
  | nil => exact List.Perm.refl _
  | cons x xs ih => exact (insertDescBy_perm key x (sortDescBy key xs)).trans (ih.cons x)

theorem pairwise_insertDescBy {α β : Type} [LinearOrder β] (key : α → β) (x : α) :
    ∀ l, l.Pairwise (fun a b => key b ≤ key a) →
      (insertDescBy key x l).Pairwise (fun a b => key b ≤ key a) := by
  intro l
  induction l with
  | nil => intro _; simp [insertDescBy]
  | cons y ys ih =>
    intro hp
    rcases List.pairwise_cons.mp hp with ⟨hy, hys⟩
    simp only [insertDescBy]
    split
    · rename_i hlt
      apply List.pairwise_cons.mpr
      refine ⟨?_, ih hys⟩
      intro a ha
      rcases (mem_insertDescBy key x a ys).mp ha with rfl | ha'
      · exact le_of_lt hlt
      · exact hy a ha'
    · rename_i hnlt
      apply List.pairwise_cons.mpr
      refine ⟨?_, hp⟩
      intro a ha
      rcases List.mem_cons.mp ha with rfl | ha'
      · exact le_of_not_lt hnlt
      · exact le_trans (hy a ha') (le_of_not_lt hnlt)

theorem sortDescBy_pairwise {α β : Type} [LinearOrder β] (key : α → β) :
    ∀ l, (sortDescBy key l).Pairwise (fun a b => key b ≤ key a) := by
  intro l
  induction l with
  | nil => simp [sortDescBy]
  | cons x xs ih => exact pairwise_insertDescBy key x _ ih

/- ============== Lemmas: the compositor equals the canonical interleaving ============== -/

theorem shiftPts_shiftPts {o p : Nat} (l : List (Nat × List Char)) (h : o ≤ p) :
    shiftPts (p - o) (shiftPts o l) = shiftPts p l := by
  simp only [shiftPts, List.map_map]
  apply List.map_congr_left
  intro pm _
  have : pm.1 - o - (p - o) = pm.1 - p := by omega
  simp [Function.comp, this]

theorem interleave_nil (doc : List Char) : interleave doc [] = doc := by
  simp [interleave]

theorem interleave_cons (doc : List Char) (o : Nat) (f : List Char)
    (rest : List (Nat × List Char)) :
    interleave doc ((o, f) :: rest)
      = doc.take o ++ f ++ interleave (doc.drop o) (shiftPts o rest) := by
  simp [interleave]

theorem interleave_take (rest : List (Nat × List Char)) (doc : List Char) (o : Nat)
    (hrest : ∀ pm ∈ rest, o ≤ pm.1 ∧ pm.1 ≤ doc.length) (ho : o ≤ doc.length) :
    (interleave doc rest).take o = doc.take o := by
  match rest with
  | [] => rw [interleave_nil]
  | (p, g) :: r' =>
    rcases hrest (p, g) (by simp) with ⟨hop, hpd⟩
    simp only at hop hpd
    rw [interleave_cons, List.append_assoc,
      List.take_append_of_le_length (by simp [List.length_take]; omega),
      List.take_take, min_eq_left hop]

theorem interleave_drop (rest : List (Nat × List Char)) (doc : List Char) (o : Nat)
    (hrest : ∀ pm ∈ rest, o ≤ pm.1 ∧ pm.1 ≤ doc.length) (ho : o ≤ doc.length) :
    (interleave doc rest).drop o = interleave (doc.drop o) (shiftPts o rest) := by
  match rest with
  | [] => simp [interleave_nil, shiftPts]
  | (p, g) :: r' =>
    rcases hrest (p, g) (by simp) with ⟨hop, hpd⟩
    simp only at hop hpd
    have hsh : shiftPts o ((p, g) :: r') = (p - o, g) :: shiftPts o r' := by
      simp [shiftPts]
    rw [hsh, interleave_cons, interleave_cons, List.append_assoc,
      List.drop_append_of_le_length (by simp [List.length_take]; omega),
      List.drop_take, shiftPts_shiftPts r' hop, List.drop_drop,
      show o + (p - o) = p from by omega, ← List.append_assoc]

theorem foldr_splice_eq_interleave :
    ∀ (asc : List (Nat × List Char)) (doc : List Char),
      asc.Pairwise (fun a b => a.1 ≤ b.1) → (∀ pm ∈ asc, pm.1 ≤ doc.length) →
      asc.foldr (fun pm acc => pySplice acc pm.1 pm.2) doc = interleave doc asc := by
  intro asc
  induction asc with
  | nil => intro doc _ _; rw [List.foldr_nil, interleave_nil]
  | cons hd rest ih =>
    intro doc hsorted hb
    obtain ⟨o, f⟩ := hd
    rcases List.pairwise_cons.mp hsorted with ⟨hle, hrest⟩
    have ho : o ≤ doc.length := hb (o, f) (by simp)
    have hrb : ∀ pm ∈ rest, o ≤ pm.1 ∧ pm.1 ≤ doc.length :=
      fun pm hpm => ⟨hle pm hpm, hb pm (by simp [hpm])⟩
    rw [List.foldr_cons, ih doc hrest (fun pm hpm => hb pm (by simp [hpm])), interleave_cons]
    show (interleave doc rest).take o ++ f ++ (interleave doc rest).drop o
      = doc.take o ++ f ++ interleave (doc.drop o) (shiftPts o rest)
    rw [interleave_take rest doc o hrb ho, interleave_drop rest doc o hrb ho]

theorem build_final_text_eq_interleave (doc : List Char) (pts : List (Nat × List Char))
    (hb : ∀ pm ∈ pts, pm.1 ≤ doc.length) :
    build_final_text doc pts = interleave doc ((sortDescBy Prod.fst pts).reverse) := by
  have h1 : build_final_text doc pts =
      ((sortDescBy Prod.fst pts).reverse).foldr
        (fun pm acc => pySplice acc pm.1 pm.2) doc := by
    unfold build_final_text
    rw [List.foldr_reverse]
  rw [h1]
  apply foldr_splice_eq_interleave
  · rw [List.pairwise_reverse]
    exact sortDescBy_pairwise Prod.fst pts
  · intro pm hpm
    exact hb pm ((sortDescBy_perm Prod.fst pts).mem_iff.mp (List.mem_reverse.mp hpm))

/- ============== Lemmas: fragment windows ============== -/

theorem fragWindows_add (l : List (Nat × List Char)) :
    ∀ a : Nat, fragWindows a l = (fragWindows 0 l).map (fun pw => (pw.1 + a, pw.2)) := by
  induction l with
  | nil => intro a; rfl
  | cons hd rest ih =>
    intro a
    obtain ⟨o, f⟩ := hd
    show (o + a, f) :: fragWindows (a + f.length) rest
      = ((o + 0, f) :: fragWindows (0 + f.length) rest).map (fun pw => (pw.1 + a, pw.2))
    rw [List.map_cons, ih (a + f.length), ih (0 + f.length), List.map_map]
    congr 1
    apply List.map_congr_left
    intro pw _
    simp only [Function.comp_apply, Prod.mk.injEq]
    refine ⟨by omega, trivial⟩

theorem fragWindows_pos_ge (l : List (Nat × List Char)) :
    ∀ (acc o : Nat), (∀ pm ∈ l, o ≤ pm.1) → ∀ pw ∈ fragWindows acc l, o ≤ pw.1 := by
  induction l with
  | nil => intro acc o _ pw hpw; simp [fragWindows] at hpw
  | cons hd rest ih =>
    intro acc o hl pw hpw
    obtain ⟨p, g⟩ := hd
    simp only [fragWindows] at hpw
    rcases List.mem_cons.mp hpw with rfl | hpw'
    · have hp : o ≤ p := by simpa using hl (p, g) (by simp)
      show o ≤ p + acc
      omega
    · exact ih (acc + g.length) o (fun pm hpm => hl pm (by simp [hpm])) pw hpw'

theorem fragWindows_shiftPts (l : List (Nat × List Char)) :
    ∀ o : Nat, (∀ pm ∈ l, o ≤ pm.1) →
      fragWindows 0 (shiftPts o l)
        = (fragWindows 0 l).map (fun pw => (pw.1 - o, pw.2)) := by
  induction l with
  | nil => intro o _; rfl
  | cons hd rest ih =>
    intro o hl
    obtain ⟨p, g⟩ := hd
    have hp : o ≤ p := by simpa using hl (p, g) (by simp)
    have hsh : shiftPts o ((p, g) :: rest) = (p - o, g) :: shiftPts o rest := by
      simp [shiftPts]
    rw [hsh]
    show (p - o + 0, g) :: fragWindows (0 + g.length) (shiftPts o rest)
      = ((p + 0, g) :: fragWindows (0 + g.length) rest).map (fun pw => (pw.1 - o, pw.2))
    rw [List.map_cons, fragWindows_add (shiftPts o rest) (0 + g.length),
      ih o (fun pm hpm => hl pm (by simp [hpm])),
      fragWindows_add rest (0 + g.length), List.map_map, List.map_map]
    congr 1
    apply List.map_congr_left
    intro pw hpw
    have hge : o ≤ pw.1 :=
      fragWindows_pos_ge rest 0 o (fun pm hpm => hl pm (by simp [hpm])) pw hpw
    simp only [Function.comp_apply, Prod.mk.injEq]
    refine ⟨by omega, trivial⟩

theorem pairwise_shiftPts (rest : List (Nat × List Char)) (o : Nat)
    (h : rest.Pairwise (fun a b => a.1 ≤ b.1)) :
    (shiftPts o rest).Pairwise (fun a b => a.1 ≤ b.1) := by
  unfold shiftPts
  exact h.map _ (fun a b hab => Nat.sub_le_sub_right hab o)

theorem length_shiftPts (o : Nat) (l : List (Nat × List Char)) :
    (shiftPts o l).length = l.length := by
  simp [shiftPts]

theorem frag_at_aux :
    ∀ (n : Nat) (asc : List (Nat × List Char)) (doc : List Char),
      asc.length ≤ n →
      asc.Pairwise (fun a b => a.1 ≤ b.1) → (∀ pm ∈ asc, pm.1 ≤ doc.length) →
      ∀ pw ∈ fragWindows 0 asc,
        ((interleave doc asc).drop pw.1).take pw.2.length = pw.2 := by
  intro n
  induction n with
  | zero =>
    intro asc doc hn _ _ pw hpw
    have : asc = [] := List.length_eq_zero.mp (Nat.le_zero.mp hn)
    subst this
    simp [fragWindows] at hpw
  | succ n ihn =>
    intro asc doc hn hsorted hb pw hpw
    rcases asc with _ | ⟨⟨o, f⟩, rest⟩
    · simp [fragWindows] at hpw
    · rcases List.pairwise_cons.mp hsorted with ⟨hle, hrest⟩
      have ho : o ≤ doc.length := by simpa using hb (o, f) (by simp)
      have hlen_take : (doc.take o).length = o := by simp [List.length_take]; omega
      simp only [fragWindows] at hpw
      rcases List.mem_cons.mp hpw with rfl | hpw'
      · show ((interleave doc ((o, f) :: rest)).drop (o + 0)).take f.length = f
        rw [interleave_cons, Nat.add_zero, List.append_assoc,
          List.drop_append_of_le_length (le_of_eq hlen_take.symm),
          List.drop_eq_nil_of_le (le_of_eq hlen_take), List.nil_append, List.take_left]
      · rw [fragWindows_add rest (0 + f.length)] at hpw'
        rcases List.mem_map.mp hpw' with ⟨qw, hqw, rfl⟩
        have hq_ge : o ≤ qw.1 := fragWindows_pos_ge rest 0 o hle qw hqw
        have hq_mem' : (qw.1 - o, qw.2) ∈ fragWindows 0 (shiftPts o rest) := by
          rw [fragWindows_shiftPts rest o hle]
          exact List.mem_map.mpr ⟨qw, hqw, rfl⟩
        have hb' : ∀ pm ∈ shiftPts o rest, pm.1 ≤ (doc.drop o).length := by
          intro pm hpm
          rcases List.mem_map.mp hpm with ⟨qm, hqm, rfl⟩
          have := hb qm (by simp [hqm])
          simp only [List.length_drop]
          omega
        have hlen' : (shiftPts o rest).length ≤ n := by
          rw [length_shiftPts]
          simpa using Nat.le_of_succ_le_succ hn
        have ihx := ihn (shiftPts o rest) (doc.drop o) hlen'
          (pairwise_shiftPts rest o hrest) hb' (qw.1 - o, qw.2) hq_mem'
        have hA : (doc.take o ++ f).length = o + f.length := by simp [hlen_take]
        show ((interleave doc ((o, f) :: rest)).drop (qw.1 + (0 + f.length))).take
            qw.2.length = qw.2
        rw [interleave_cons]
        rw [show qw.1 + (0 + f.length) = (doc.take o ++ f).length + (qw.1 - o) from by
          rw [hA]; omega]
        rw [List.drop_append]
        exact ihx

theorem frag_at (asc : List (Nat × List Char)) (doc : List Char)
    (hsorted : asc.Pairwise (fun a b => a.1 ≤ b.1))
    (hb : ∀ pm ∈ asc, pm.1 ≤ doc.length) :
    ∀ pw ∈ fragWindows 0 asc,
      ((interleave doc asc).drop pw.1).take pw.2.length = pw.2 :=
  frag_at_aux asc.length asc doc (Nat.le_refl _) hsorted hb

/- ============== Lemmas: removal round-trip ============== -/

theorem removeFoldr_append :
    ∀ (ws : List (Nat × Nat)) (a t : List Char),
      (∀ w ∈ ws, a.length ≤ w.1) →
      ws.foldr removeWinStep (a ++ t)
        = a ++ (ws.map (fun w => (w.1 - a.length, w.2))).foldr removeWinStep t := by
  intro ws
  induction ws with
  | nil => intro a t _; rfl
  | cons w ws' ih =>
    intro a t hws
    obtain ⟨p, n⟩ := w
    have hp : a.length ≤ p := by simpa using hws (p, n) (by simp)
    rw [List.foldr_cons, ih a t (fun w hw => hws w (by simp [hw])), List.map_cons,
      List.foldr_cons]
    show (a ++ _).take p ++ (a ++ _).drop (p + n) = a ++ (_ ++ _)
    rw [List.take_append_eq_append_take, List.drop_append_eq_append_drop,
      List.take_of_length_le hp, List.drop_eq_nil_of_le (by omega),
      show p + n - a.length = (p - a.length) + n from by omega,
      List.nil_append, List.append_assoc]

theorem remove_interleave_aux :
    ∀ (n : Nat) (asc : List (Nat × List Char)) (doc : List Char),
      asc.length ≤ n →
      asc.Pairwise (fun a b => a.1 ≤ b.1) → (∀ pm ∈ asc, pm.1 ≤ doc.length) →
      ((fragWindows 0 asc).map (fun pw => (pw.1, pw.2.length))).foldr
        removeWinStep (interleave doc asc) = doc := by
  intro n
  induction n with
  | zero =>
    intro asc doc hn _ _
    have : asc = [] := List.length_eq_zero.mp (Nat.le_zero.mp hn)
    subst this
    rw [interleave_nil]
    rfl
  | succ n ihn =>
    intro asc doc hn hsorted hb
    rcases asc with _ | ⟨⟨o, f⟩, rest⟩
    · rw [interleave_nil]; rfl
    · rcases List.pairwise_cons.mp hsorted with ⟨hle, hrest⟩
      have ho : o ≤ doc.length := by simpa using hb (o, f) (by simp)
      have hlen_take : (doc.take o).length = o := by simp [List.length_take]; omega
      have hA : (doc.take o ++ f).length = o + f.length := by simp [hlen_take]
      have hb' : ∀ pm ∈ shiftPts o rest, pm.1 ≤ (doc.drop o).length := by
        intro pm hpm
        rcases List.mem_map.mp hpm with ⟨qm, hqm, rfl⟩
        have := hb qm (by simp [hqm])
        simp only [List.length_drop]
        omega
      have hlen' : (shiftPts o rest).length ≤ n := by
        rw [length_shiftPts]
        simpa using Nat.le_of_succ_le_succ hn
      have hwin :
          ((fragWindows (0 + f.length) rest).map (fun pw => (pw.1, pw.2.length))).map
              (fun w => (w.1 - (doc.take o ++ f).length, w.2))
            = (fragWindows 0 (shiftPts o rest)).map (fun pw => (pw.1, pw.2.length)) := by
        rw [fragWindows_add rest (0 + f.length), fragWindows_shiftPts rest o hle,
          List.map_map, List.map_map, List.map_map]
        apply List.map_congr_left
        intro pw hpw
        have hge : o ≤ pw.1 := fragWindows_pos_ge rest 0 o hle pw hpw
        simp [Function.comp, Prod.ext_iff, hA]
        omega
      have hge2 : ∀ w ∈ (fragWindows (0 + f.length) rest).map
          (fun pw => (pw.1, pw.2.length)), (doc.take o ++ f).length ≤ w.1 := by
        intro w hw
        rcases List.mem_map.mp hw with ⟨pw, hpw, rfl⟩
        rw [fragWindows_add rest (0 + f.length)] at hpw
        rcases List.mem_map.mp hpw with ⟨qw, hqw, rfl⟩
        have : o ≤ qw.1 := fragWindows_pos_ge rest 0 o hle qw hqw
        show (doc.take o ++ f).length ≤ qw.1 + (0 + f.length)
        rw [hA]
        omega
      show ((fragWindows 0 ((o, f) :: rest)).map (fun pw => (pw.1, pw.2.length))).foldr
          removeWinStep (interleave doc ((o, f) :: rest)) = doc
      rw [interleave_cons]
      simp only [fragWindows, List.map_cons, List.foldr_cons]
      rw [removeFoldr_append _ (doc.take o ++ f) _ hge2, hwin,
        ihn (shiftPts o rest) (doc.drop o) hlen' (pairwise_shiftPts rest o hrest) hb']
      show ((doc.take o ++ f) ++ doc.drop o).take (o + 0)
          ++ ((doc.take o ++ f) ++ doc.drop o).drop ((o + 0) + f.length) = doc
      rw [Nat.add_zero, List.take_append_eq_append_take,
        List.take_append_of_le_length (le_of_eq hlen_take.symm), List.take_take,
        Nat.min_self, show o - (doc.take o ++ f).length = 0 from by rw [hA]; omega,
        List.take_zero, List.append_nil,
        show o + f.length = (doc.take o ++ f).length from hA.symm,
        List.drop_left, List.take_append_drop]

theorem remove_interleave (asc : List (Nat × List Char)) (doc : List Char)
    (hsorted : asc.Pairwise (fun a b => a.1 ≤ b.1))
    (hb : ∀ pm ∈ asc, pm.1 ≤ doc.length) :
    ((fragWindows 0 asc).map (fun pw => (pw.1, pw.2.length))).foldr
      removeWinStep (interleave doc asc) = doc :=
  remove_interleave_aux asc.length asc doc (Nat.le_refl _) hsorted hb

/- ============== C2: compositor offsets and removal round-trip ============== -/

/-- C2: for distinct in-range offsets, the compositor (stable descending sort,
then iterated splicing) places every fragment at its window — its own offset
plus the total length of the fragments inserted at lower offsets, i.e. exactly
at its original offset relative to the original document — and removing
exactly those windows (by length and position, highest position first)
reconstructs the original document. -/
theorem build_final_text_offsets_and_roundtrip (doc : List Char)
    (pts : List (Nat × List Char))
    (hb : ∀ pm ∈ pts, pm.1 ≤ doc.length)
    (_hd : (pts.map Prod.fst).Pairwise (fun a b => a ≠ b)) :
    (∀ pw ∈ fragWindows 0 ((sortDescBy Prod.fst pts).reverse),
        ((build_final_text doc pts).drop pw.1).take pw.2.length = pw.2) ∧
    removeWindowsDesc (build_final_text doc pts)
        (((fragWindows 0 ((sortDescBy Prod.fst pts).reverse)).map
          (fun pw => (pw.1, pw.2.length))).reverse) = doc := by
  have hsorted : ((sortDescBy Prod.fst pts).reverse).Pairwise (fun a b => a.1 ≤ b.1) := by
    rw [List.pairwise_reverse]
    exact sortDescBy_pairwise Prod.fst pts
  have hb' : ∀ pm ∈ (sortDescBy Prod.fst pts).reverse, pm.1 ≤ doc.length :=
    fun pm hpm => hb pm ((sortDescBy_perm Prod.fst pts).mem_iff.mp (List.mem_reverse.mp hpm))
  have heq := build_final_text_eq_interleave doc pts hb
  constructor
  · intro pw hpw
    rw [heq]
    exact frag_at _ doc hsorted hb' pw hpw
  · rw [heq]
    unfold removeWindowsDesc
    rw [List.foldl_reverse]
    exact remove_interleave _ doc hsorted hb'

/-- C2 witness: splicing `X` at 1 and `Y` at 4 into `abcdef` and removing the
two windows again yields `abcdef`. -/
theorem build_final_text_offsets_and_roundtrip_witness :
    removeWindowsDesc
        (build_final_text (String.toList "abcdef")
          [(4, String.toList "Y"), (1, String.toList "X")])
        (((fragWindows 0 ((sortDescBy Prod.fst
            [(4, String.toList "Y"), (1, String.toList "X")]).reverse)).map
          (fun pw => (pw.1, pw.2.length))).reverse)
      = String.toList "abcdef" :=
  (build_final_text_offsets_and_roundtrip (String.toList "abcdef")
    [(4, String.toList "Y"), (1, String.toList "X")] (by decide) (by decide)).2

/- ============== C7: order of fragments sharing an offset ============== -/

/-- C7 counterexample: on fragments `X` then `Y`, both at offset 1 of `ab`,
the compositor produces `aYXb` — the later input fragment precedes the
earlier one, so the claimed input-order preservation fails. -/
theorem build_final_text_tie_counterexample :
    build_final_text (String.toList "ab")
        [(1, String.toList "X"), (1, String.toList "Y")] = String.toList "aYXb"
      ∧ String.toList "aYXb" ≠ String.toList "aXYb" := by
  constructor
  · rfl
  · decide

/-- C7 (amended): the compositor equals the canonical interleaving of the
reverse of the stable descending sort — so fragments sharing an offset appear
consecutively in **reverse** input order; in particular two fragments at one
offset come out with the later input fragment first. -/
theorem build_final_text_tie_order :
    (∀ (doc : List Char) (pts : List (Nat × List Char)),
      (∀ pm ∈ pts, pm.1 ≤ doc.length) →
      build_final_text doc pts = interleave doc ((sortDescBy Prod.fst pts).reverse)) ∧
    (∀ (doc f g : List Char) (o : Nat), o ≤ doc.length →
      build_final_text doc [(o, f), (o, g)] = doc.take o ++ g ++ f ++ doc.drop o) := by
  constructor
  · exact build_final_text_eq_interleave
  · intro doc f g o ho
    rw [build_final_text_eq_interleave doc _ (by simp [ho])]
    have hs : sortDescBy Prod.fst [(o, f), (o, g)] = [(o, f), (o, g)] := by
      simp [sortDescBy, insertDescBy]
    rw [hs]
    show interleave doc [(o, g), (o, f)] = doc.take o ++ g ++ f ++ doc.drop o
    rw [interleave_cons]
    have hsh : shiftPts o [(o, f)] = [(0, f)] := by simp [shiftPts]
    rw [hsh, interleave_cons]
    simp [interleave_nil, shiftPts]

/-- C7 witness for the amended tie rule at a concrete input. -/
theorem build_final_text_tie_order_witness :
    build_final_text (String.toList "cd") [(2, String.toList "P"), (2, String.toList "Q")]
      = (String.toList "cd").take 2 ++ String.toList "Q" ++ String.toList "P"
        ++ (String.toList "cd").drop 2 :=
  build_final_text_tie_order.2 (String.toList "cd") (String.toList "P")
    (String.toList "Q") 2 (by decide)

/- ============== Lemmas: Block Classifier/Mover ============== -/

theorem convert_isSome_of_bbox {b : Block} (h : b.bbox.isSome) :
    (convert_to_para_block_format b).isSome := by
  unfold convert_to_para_block_format
  rcases hb : b.bbox with _ | bx
  · rw [hb] at h
    simp at h
  · rcases hl : b.lines with _ | ls <;> simp

theorem moveCond_bbox {th : ℚ} {b : Block} (h : moveCond th b = true) :
    b.bbox.isSome := by
  unfold moveCond at h
  rcases hb : b.bbox with _ | bx
  · rw [hb] at h
    simp at h
  · simp [hb]

theorem classify_eq (th : ℚ) :
    ∀ db : List Block,
      classify th db
        = (db.filterMap (fun b =>
              if moveCond th b then convert_to_para_block_format b else none),
           db.filter (fun b => !moveCond th b)) := by
  intro db
  induction db with
  | nil => rfl
  | cons b rest ih =>
    simp only [classify, ih]
    by_cases hc : moveCond th b
    · have hs : (convert_to_para_block_format b).isSome :=
        convert_isSome_of_bbox (moveCond_bbox hc)
      rcases hcv : convert_to_para_block_format b with _ | cb
      · rw [hcv] at hs
        simp at hs
      · simp [hc, hcv, List.filterMap_cons, List.filter_cons]
    · simp [hc, List.filterMap_cons, List.filter_cons]

theorem reprocess_page_spec (page : Page) (percent : ℚ) (ps : List ℚ)
    (db pb : List Block)
    (hps : page.page_size = some ps) (hlen : 2 ≤ ps.length)
    (hdb : page.discarded_blocks = some db) (hpb : page.para_blocks = some pb) :
    (reprocess_page percent page).para_blocks
        = some (pb ++ db.filterMap (fun b =>
            if moveCond (ps.getD 1 0 * (1 - percent / 100)) b
            then convert_to_para_block_format b else none)) ∧
    (reprocess_page percent page).discarded_blocks
        = some (db.filter (fun b =>
            !moveCond (ps.getD 1 0 * (1 - percent / 100)) b)) := by
  have hne : ps.isEmpty = false := by
    rcases ps with _ | ⟨a, t⟩
    · simp at hlen
    · simp
  have hnempty : ¬((ps.isEmpty || decide (ps.length < 2)) = true) := by
    rw [hne]
    simp only [Bool.false_or, decide_eq_true_eq]
    omega
  unfold reprocess_page
  simp only [hps, hdb, hpb, if_neg hnempty]
  rw [classify_eq]
  split
  · rename_i hemp
    have hmv' : db.filterMap (fun b =>
        if moveCond (ps.getD 1 0 * (1 - percent / 100)) b
        then convert_to_para_block_format b else none) = [] := by
      simpa [List.isEmpty_iff] using hemp
    have hall : ∀ b ∈ db, moveCond (ps.getD 1 0 * (1 - percent / 100)) b = false := by
      intro b hbm
      by_cases hc : moveCond (ps.getD 1 0 * (1 - percent / 100)) b
      · exfalso
        have hs : (convert_to_para_block_format b).isSome :=
          convert_isSome_of_bbox (moveCond_bbox hc)
        rcases hcv : convert_to_para_block_format b with _ | cb
        · rw [hcv] at hs
          simp at hs
        · have hcmem : cb ∈ db.filterMap (fun b =>
              if moveCond (ps.getD 1 0 * (1 - percent / 100)) b
              then convert_to_para_block_format b else none) :=
            List.mem_filterMap.mpr ⟨b, hbm, by rw [if_pos hc, hcv]⟩
          rw [hmv'] at hcmem
          simp at hcmem
      · simpa using hc
    have hfilter : db.filter (fun b =>
        !moveCond (ps.getD 1 0 * (1 - percent / 100)) b) = db :=
      List.filter_eq_self.mpr (fun b hbm => by rw [hall b hbm]; rfl)
    constructor
    · rw [hpb, hmv', List.append_nil]
    · rw [hdb, hfilter]
  · exact ⟨rfl, rfl⟩

/- ============== C3: which discarded blocks are moved ============== -/

/-- C3 counterexample: the claim says a block whose bbox does not have exactly
4 entries remains untouched in `discarded_blocks`; but the source accepts any
bbox with `len(bbox) >= 4`, so the five-entry block of `pageFive` (top edge
760 ≥ 792 × 0.8) is moved out of `discarded_blocks`. -/
theorem reprocess_page_five_entry_counterexample :
    pageFive.discarded_blocks = some [blkFive] ∧
    (reprocess_page 20 pageFive).discarded_blocks = some [] := by
  refine ⟨rfl, ?_⟩
  obtain ⟨-, hdis⟩ :=
    reprocess_page_spec pageFive 20 [612, 792] [blkFive] [] rfl (by decide) rfl rfl
  have hcond : moveCond (([612, 792] : List ℚ).getD 1 0 * (1 - 20 / 100)) blkFive
      = true := by
    simp [moveCond, blkFive]
    norm_num
  rw [hdis]
  simp only [List.filter_cons, List.filter_nil, hcond, Bool.not_true,
    Bool.false_eq_true, if_false]

/-- C3 (amended): for every repaired page (a `page_size` with at least two
entries, and `discarded_blocks` / `para_blocks` lists) and threshold
percentage `p` with `0 < p ≤ 100`, with `y_threshold = page_height ×
(1 − p/100)`: every discarded block passing the source's validity test (bbox
present, non-empty, with **at least** 4 entries — not exactly 4 as claimed)
and the geometry test `bbox[1] ≥ y_threshold` is converted to the canonical
paragraph shape and appended to `para_blocks` in original relative order, and
removed from `discarded_blocks`; every other block stays, unchanged and in
order, in `discarded_blocks`. -/
theorem reprocess_page_moves_bottom_blocks (page : Page) (percent : ℚ) (ps : List ℚ)
    (db pb : List Block)
    (_hpos : 0 < percent) (_hle : percent ≤ 100)
    (hps : page.page_size = some ps) (hlen : 2 ≤ ps.length)
    (hdb : page.discarded_blocks = some db) (hpb : page.para_blocks = some pb) :
    (reprocess_page percent page).para_blocks
        = some (pb ++ db.filterMap (fun b =>
            if moveCond (ps.getD 1 0 * (1 - percent / 100)) b
            then convert_to_para_block_format b else none)) ∧
    (reprocess_page percent page).discarded_blocks
        = some (db.filter (fun b =>
            !moveCond (ps.getD 1 0 * (1 - percent / 100)) b)) :=
  reprocess_page_spec page percent ps db pb hps hlen hdb hpb

/-- C3 witness: the four-entry block of `pageFour` is classified by the
amended rule at threshold 20%. -/
theorem reprocess_page_moves_bottom_blocks_witness :
    (reprocess_page 20 pageFour).discarded_blocks
      = some ([blkFour].filter (fun b =>
          !moveCond (([612, 792] : List ℚ).getD 1 0 * (1 - 20 / 100)) b)) :=
  (reprocess_page_moves_bottom_blocks pageFour 20 [612, 792] [blkFour] []
    (by norm_num) (by norm_num) rfl (by decide) rfl rfl).2

/- ============== C4: the mover never loses a block ============== -/

theorem filterMap_filter_length_split (cond : Block → Bool) (cv : Block → Option Block)
    (h : ∀ b, cond b = true → (cv b).isSome) :
    ∀ db : List Block,
      (db.filterMap (fun b => if cond b then cv b else none)).length
        + (db.filter (fun b => !cond b)).length = db.length := by
  intro db
  induction db with
  | nil => rfl
  | cons b rest ih =>
    by_cases hc : cond b
    · have hs := h b hc
      rcases ho : cv b with _ | c
      · rw [ho] at hs
        simp at hs
      · simp [List.filterMap_cons, List.filter_cons, hc, ho]
        omega
    · have hcf : cond b = false := by simpa using hc
      simp [List.filterMap_cons, List.filter_cons, hcf]
      omega

/-- C4: the Block Classifier/Mover never loses a block.  For every repaired
page, the total number of blocks across `para_blocks` and `discarded_blocks`
is preserved; every discarded block either appears converted in `para_blocks`
or remains, unchanged, in `discarded_blocks`; and a block whose canonical
conversion fails (the unconvertible outcome, i.e. missing bbox) is always
retained in `discarded_blocks`. -/
theorem reprocess_page_no_block_lost (page : Page) (percent : ℚ) (ps : List ℚ)
    (db pb : List Block)
    (hps : page.page_size = some ps) (hlen : 2 ≤ ps.length)
    (hdb : page.discarded_blocks = some db) (hpb : page.para_blocks = some pb) :
    ((reprocess_page percent page).para_blocks.getD []).length
        + ((reprocess_page percent page).discarded_blocks.getD []).length
      = pb.length + db.length ∧
    (∀ b ∈ db,
      (∃ c, convert_to_para_block_format b = some c ∧
        c ∈ (reprocess_page percent page).para_blocks.getD []) ∨
      b ∈ (reprocess_page percent page).discarded_blocks.getD []) ∧
    (∀ b ∈ db, convert_to_para_block_format b = none →
      b ∈ (reprocess_page percent page).discarded_blocks.getD []) := by
  obtain ⟨hpara, hdis⟩ := reprocess_page_spec page percent ps db pb hps hlen hdb hpb
  rw [hpara, hdis]
  simp only [Option.getD_some]
  refine ⟨?_, ?_, ?_⟩
  · rw [List.length_append]
    have hsplit := filterMap_filter_length_split
      (fun b => moveCond (ps.getD 1 0 * (1 - percent / 100)) b)
      convert_to_para_block_format
      (fun b hc => convert_isSome_of_bbox (moveCond_bbox hc)) db
    omega
  · intro b hbm
    by_cases hc : moveCond (ps.getD 1 0 * (1 - percent / 100)) b
    · left
      have hs : (convert_to_para_block_format b).isSome :=
        convert_isSome_of_bbox (moveCond_bbox hc)
      rcases ho : convert_to_para_block_format b with _ | c
      · rw [ho] at hs
        simp at hs
      · refine ⟨c, rfl, ?_⟩
        apply List.mem_append_right
        exact List.mem_filterMap.mpr ⟨b, hbm, by rw [if_pos hc, ho]⟩
    · right
      have hcf : moveCond (ps.getD 1 0 * (1 - percent / 100)) b = false := by
        simpa using hc
      exact List.mem_filter.mpr ⟨hbm, by rw [hcf]; rfl⟩
  · intro b hbm hnone
    have hcf : moveCond (ps.getD 1 0 * (1 - percent / 100)) b = false := by
      by_cases hc : moveCond (ps.getD 1 0 * (1 - percent / 100)) b
      · exfalso
        have hs := convert_isSome_of_bbox (moveCond_bbox hc)
        rw [hnone] at hs
        simp at hs
      · simpa using hc
    exact List.mem_filter.mpr ⟨hbm, by rw [hcf]; rfl⟩

/-- C4 witness: on `pageFour` at threshold 20%, the one discarded block is
accounted for — the total block count after the move is still 1. -/
theorem reprocess_page_no_block_lost_witness :
    ((reprocess_page 20 pageFour).para_blocks.getD []).length
        + ((reprocess_page 20 pageFour).discarded_blocks.getD []).length = 1 := by
  have h := (reprocess_page_no_block_lost pageFour 20 [612, 792] [blkFour] []
    rfl (by decide) rfl rfl).1
  simpa using h

/- ============== C5: Block Schema Repair ============== -/

/-- C5 counterexample: a `page_size` with three entries survives repair
unchanged, so the claimed invariant "page_size has exactly 2 positive numeric
entries after repair" fails. -/
theorem fix_incomplete_page_data_counterexample :
    (fix_incomplete_page_data pageSize3 0).1.page_size = some [5, 5, 5] ∧
    ([5, 5, 5] : List ℚ).length ≠ 2 := by
  constructor
  · rfl
  · decide

/-- C5 (amended): after repair every required field is present with its
typed default; `page_size` always has **at least** two entries afterwards
(exactly the positive default pair whenever the function itself filled it,
i.e. when it was missing, empty or a singleton — but a malformed `page_size`
with more than two, or non-positive, entries is left as supplied); and the
returned flag is `true` precisely when the repair modified the record. -/
theorem fix_incomplete_page_data_spec (p : Page) (idx : Nat) :
    ((fix_incomplete_page_data p idx).1.preproc_blocks.isSome ∧
     (fix_incomplete_page_data p idx).1.layout_bboxes.isSome ∧
     (fix_incomplete_page_data p idx).1.page_idx.isSome ∧
     (fix_incomplete_page_data p idx).1.page_size.isSome ∧
     (fix_incomplete_page_data p idx).1.layout_tree.isSome ∧
     (fix_incomplete_page_data p idx).1.images.isSome ∧
     (fix_incomplete_page_data p idx).1.tables.isSome ∧
     (fix_incomplete_page_data p idx).1.interline_equations.isSome ∧
     (fix_incomplete_page_data p idx).1.discarded_blocks.isSome ∧
     (fix_incomplete_page_data p idx).1.para_blocks.isSome ∧
     (fix_incomplete_page_data p idx).1.need_drop.isSome ∧
     (fix_incomplete_page_data p idx).1.drop_reason.isSome) ∧
    2 ≤ ((fix_incomplete_page_data p idx).1.page_size.getD []).length ∧
    ((fix_incomplete_page_data p idx).2 = true ↔ (fix_incomplete_page_data p idx).1 ≠ p) := by
  obtain ⟨p1, p2, p3, p4, p5, p6, p7, p8, p9, p10, p11, p12⟩ := p
  refine ⟨by simp [fix_incomplete_page_data], ?_, ?_⟩
  · simp only [fix_incomplete_page_data, Option.getD_some]
    rcases p4 with _ | ps
    · simp
    · simp only [Option.getD_some]
      split
      · rename_i h1
        simp [h1]
      · split
        · simp
        · rename_i h1 h2
          show 2 ≤ ps.length
          omega
  · constructor
    · intro hf hqp
      simp only [fix_incomplete_page_data] at hf hqp
      rw [Page.mk.injEq] at hqp
      obtain ⟨e1, e2, e3, e4, e5, e6, e7, e8, e9, e10, e11, e12⟩ := hqp
      rcases p1 with _ | v1
      · simp at e1
      rcases p2 with _ | v2
      · simp at e2
      rcases p3 with _ | v3
      · simp at e3
      rcases p4 with _ | ps
      · simp at e4
      rcases p5 with _ | v5
      · simp at e5
      rcases p6 with _ | v6
      · simp at e6
      rcases p7 with _ | v7
      · simp at e7
      rcases p8 with _ | v8
      · simp at e8
      rcases p9 with _ | v9
      · simp at e9
      rcases p10 with _ | v10
      · simp at e10
      rcases p11 with _ | v11
      · simp at e11
      rcases p12 with _ | v12
      · simp at e12
      simp only [Option.isNone_some, Bool.false_or, Bool.or_false,
        Option.getD_some] at hf
      simp only [Option.getD_some] at e4
      by_cases h1 : ps.length = 1
      · rw [if_pos h1] at e4
        have hxy : ps ++ [1400] = ps := Option.some.inj e4
        have hlen := congrArg List.length hxy
        rw [List.length_append] at hlen
        simp at hlen
      · by_cases h2 : ps.length = 0
        · rw [if_neg h1, if_pos h2] at e4
          have hxy : ([1000, 1400] : List ℚ) = ps := Option.some.inj e4
          have hlen := congrArg List.length hxy
          simp [h2] at hlen
        · rw [if_neg h1, if_neg h2] at hf
          simp at hf
    · intro hne
      by_contra hf
      have hf' : (fix_incomplete_page_data
          (Page.mk p1 p2 p3 p4 p5 p6 p7 p8 p9 p10 p11 p12) idx).2 = false := by
        simpa using hf
      apply hne
      simp only [fix_incomplete_page_data] at hf' ⊢
      rcases Bool.or_eq_false_iff.mp hf' with ⟨hmd, h12⟩
      rcases Bool.or_eq_false_iff.mp hmd with ⟨hm, hsz⟩
      rcases Bool.or_eq_false_iff.mp h12 with ⟨h11, h12'⟩
      rcases p11 with _ | v11
      · simp at h11
      rcases p12 with _ | v12
      · simp at h12'
      simp only [Bool.or_eq_false_iff] at hm
      obtain ⟨⟨⟨⟨⟨⟨⟨⟨⟨c1, c2⟩, c3⟩, c4⟩, c5⟩, c6⟩, c7⟩, c8⟩, c9⟩, c10⟩ := hm
      rcases p1 with _ | v1
      · simp at c1
      rcases p2 with _ | v2
      · simp at c2
      rcases p3 with _ | v3
      · simp at c3
      rcases p4 with _ | v4
      · simp at c4
      rcases p5 with _ | v5
      · simp at c5
      rcases p6 with _ | v6
      · simp at c6
      rcases p7 with _ | v7
      · simp at c7
      rcases p8 with _ | v8
      · simp at c8
      rcases p9 with _ | v9
      · simp at c9
      rcases p10 with _ | v10
      · simp at c10
      simp only [Option.getD_some] at hsz ⊢
      have hv4 : ¬v4.length = 1 ∧ ¬v4.length = 0 := by
        by_cases h1 : v4.length = 1
        · simp [h1] at hsz
        · by_cases h2 : v4.length = 0
          · simp [h1, h2] at hsz
          · exact ⟨h1, h2⟩
      rw [if_neg hv4.1, if_neg hv4.2]

/- ============== Lemmas: orchestrator page placement ============== -/

theorem lookup_cons_isSome {β : Type} {m : List (Nat × β)} {p q : Nat} {v : β}
    (h : (m.lookup p).isSome) : (((q, v) :: m).lookup p).isSome := by
  cases hb : p == q <;> simp [List.lookup, hb, h]

theorem preprocess_pages_lookup_lt :
    ∀ (l : List Page) (idx p : Nat) (pre : List PageInfo × List (Nat × PageContext))
      (ctx : PageContext),
      preprocess_pages l idx = some pre → pre.2.lookup p = some ctx →
      idx ≤ p ∧ p < idx + l.length := by
  intro l
  induction l with
  | nil =>
    intro idx p pre ctx hpre h
    simp only [preprocess_pages] at hpre
    obtain rfl := Option.some.inj hpre
    simp at h
  | cons pg rest ih =>
    intro idx p pre ctx hpre h
    simp only [preprocess_pages] at hpre
    rcases hps : pg.page_size with _ | ps
    · simp only [hps] at hpre
      have := ih (idx + 1) p pre ctx hpre h
      simp only [List.length_cons]
      omega
    · simp only [hps] at hpre
      by_cases hlen : ps.length < 2
      · rw [if_pos hlen] at hpre
        exact absurd hpre (by simp)
      · rw [if_neg hlen] at hpre
        rcases hscan : scanLastBlock (none, -1) (pg.para_blocks.getD []) with _ | st
        · simp [hscan] at hpre
        · simp only [hscan] at hpre
          rcases htail : preprocess_pages rest (idx + 1) with _ | tail
          · simp [htail] at hpre
          · simp only [htail] at hpre
            rcases hst : st.1 with _ | c
            · simp only [hst] at hpre
              obtain rfl := Option.some.inj hpre
              have := ih (idx + 1) p tail ctx htail h
              simp only [List.length_cons]
              omega
            · simp only [hst] at hpre
              obtain rfl := Option.some.inj hpre
              by_cases hpi : p = idx
              · simp only [List.length_cons]
                omega
              · have hne : (p == idx) = false := by simp [hpi]
                simp only [List.lookup, hne] at h
                have := ih (idx + 1) p tail ctx htail h
                simp only [List.length_cons]
                omega

theorem processPageStep_mono (md : List Char) (pi : List PageInfo)
    (ctxs : List (Nat × PageContext)) (ibp : Bool) (fns : List Footnote)
    (st st' : PPState) (q p : Nat)
    (hstep : processPageStep md pi ctxs ibp fns st q = some st')
    (h : (st.matched_points.lookup p).isSome ∨ p ∈ st.unmatched_pages) :
    (st'.matched_points.lookup p).isSome ∨ p ∈ st'.unmatched_pages := by
  unfold processPageStep at hstep
  rcases hc : ctxs.lookup q with _ | c
  · simp only [hc] at hstep
    obtain rfl := Option.some.inj hstep
    exact h
  · simp only [hc] at hstep
    rcases hinfo : pi[q]? with _ | info
    · simp [hinfo] at hstep
    · simp only [hinfo] at hstep
      rcases hpb : pageBlocksOf info with _ | pbs
      · simp [hpb] at hstep
      · simp only [hpb] at hstep
        split at hstep
        · obtain rfl := Option.some.inj hstep
          rcases h with hm | hu
          · exact Or.inl (lookup_cons_isSome hm)
          · exact Or.inr hu
        · obtain rfl := Option.some.inj hstep
          rcases h with hm | hu
          · exact Or.inl hm
          · exact Or.inr (List.mem_append_left _ hu)

theorem processPageStep_self (md : List Char) (pi : List PageInfo)
    (ctxs : List (Nat × PageContext)) (ibp : Bool) (fns : List Footnote)
    (st st' : PPState) (p : Nat)
    (hstep : processPageStep md pi ctxs ibp fns st p = some st')
    (hc : (ctxs.lookup p).isSome) :
    (st'.matched_points.lookup p).isSome ∨ p ∈ st'.unmatched_pages := by
  unfold processPageStep at hstep
  rcases hl : ctxs.lookup p with _ | c
  · rw [hl] at hc
    simp at hc
  · simp only [hl] at hstep
    rcases hinfo : pi[p]? with _ | info
    · simp [hinfo] at hstep
    · simp only [hinfo] at hstep
      rcases hpb : pageBlocksOf info with _ | pbs
      · simp [hpb] at hstep
      · simp only [hpb] at hstep
        split at hstep
        · obtain rfl := Option.some.inj hstep
          left
          simp [List.lookup]
        · obtain rfl := Option.some.inj hstep
          right
          simp

theorem processPagesLoop_mono (md : List Char) (pi : List PageInfo)
    (ctxs : List (Nat × PageContext)) (ibp : Bool) (fns : List Footnote) :
    ∀ (l : List Nat) (st st' : PPState) (p : Nat),
      processPagesLoop md pi ctxs ibp fns l st = some st' →
      ((st.matched_points.lookup p).isSome ∨ p ∈ st.unmatched_pages) →
      ((st'.matched_points.lookup p).isSome ∨ p ∈ st'.unmatched_pages) := by
  intro l
  induction l with
  | nil =>
    intro st st' p hloop h
    simp only [processPagesLoop] at hloop
    obtain rfl := Option.some.inj hloop
    exact h
  | cons q rest ih =>
    intro st st' p hloop h
    simp only [processPagesLoop] at hloop
    rcases hstep : processPageStep md pi ctxs ibp fns st q with _ | st1
    · simp [hstep] at hloop
    · simp only [hstep] at hloop
      exact ih st1 st' p hloop (processPageStep_mono md pi ctxs ibp fns st st1 q p hstep h)

theorem processPagesLoop_inRec (md : List Char) (pi : List PageInfo)
    (ctxs : List (Nat × PageContext)) (ibp : Bool) (fns : List Footnote) :
    ∀ (l : List Nat) (st st' : PPState) (p : Nat),
      processPagesLoop md pi ctxs ibp fns l st = some st' →
      p ∈ l → (ctxs.lookup p).isSome →
      ((st'.matched_points.lookup p).isSome ∨ p ∈ st'.unmatched_pages) := by
  intro l
  induction l with
  | nil => intro st st' p _ hp _; simp at hp
  | cons q rest ih =>
    intro st st' p hloop hp hc
    simp only [processPagesLoop] at hloop
    rcases hstep : processPageStep md pi ctxs ibp fns st q with _ | st1
    · simp [hstep] at hloop
    · simp only [hstep] at hloop
      rcases List.mem_cons.mp hp with rfl | hp'
      · exact processPagesLoop_mono md pi ctxs ibp fns rest st1 st' p hloop
          (processPageStep_self md pi ctxs ibp fns st st1 p hstep hc)
      · exact ih st1 st' p hloop hp' hc

theorem resolveStep_mono (md : List Char) (ibp : Bool) (fns : List Footnote)
    (total : Nat) (st : List (Int × List Char) × List (Nat × Int)) (q p : Nat)
    (h : (st.2.lookup p).isSome) :
    ((resolveStep md ibp fns total st q).2.lookup p).isSome := by
  simp only [resolveStep]
  exact lookup_cons_isSome h

theorem resolveStep_self (md : List Char) (ibp : Bool) (fns : List Footnote)
    (total : Nat) (st : List (Int × List Char) × List (Nat × Int)) (p : Nat) :
    ((resolveStep md ibp fns total st p).2.lookup p).isSome := by
  simp only [resolveStep]
  simp [List.lookup]

theorem resolve_fold_mono (md : List Char) (ibp : Bool) (fns : List Footnote)
    (total : Nat) :
    ∀ (l : List Nat) (st : List (Int × List Char) × List (Nat × Int)) (p : Nat),
      (st.2.lookup p).isSome →
      ((l.foldl (resolveStep md ibp fns total) st).2.lookup p).isSome := by
  intro l
  induction l with
  | nil => intro st p h; exact h
  | cons q rest ih =>
    intro st p h
    rw [List.foldl_cons]
    exact ih _ p (resolveStep_mono md ibp fns total st q p h)

theorem resolve_fold_self (md : List Char) (ibp : Bool) (fns : List Footnote)
    (total : Nat) :
    ∀ (l : List Nat) (st : List (Int × List Char) × List (Nat × Int)) (p : Nat),
      p ∈ l →
      ((l.foldl (resolveStep md ibp fns total) st).2.lookup p).isSome := by
  intro l
  induction l with
  | nil => intro st p hp; simp at hp
  | cons q rest ih =>
    intro st p hp
    rw [List.foldl_cons]
    rcases List.mem_cons.mp hp with rfl | hp'
    · exact resolve_fold_mono md ibp fns total rest _ p
        (resolveStep_self md ibp fns total st p)
    · exact ih _ p hp'

/- ============== C6: which pages receive an insertion position ============== -/

/-- A companion fact for C6: when a page lacking `page_size` precedes a page
with a context, `page_info` (which only records pages with a `page_size`) is
shorter than that page's index, `self.page_info[current_page]` raises
`IndexError`, and the whole run aborts (`none`) — no page at all receives a
position.  So non-placement is not always a silent per-page skip: it can be a
document-wide fatal error. -/
theorem run_phases_misaligned_page_info_aborts :
    run_phases [emptyPage, pageHello] (String.toList "hello world") true [] = none := rfl

/-- C6 counterexample: a well-formed page with no text blocks obtains no
anchor context in Preprocess, so it is neither matched in LocatePages nor
added to the unmatched set — the run completes without any exception, yet
the page has no entry in the final `matched_points` and contributes no
insertion point: the page is omitted, refuting "every page receives some
ordered insertion position". -/
theorem run_phases_page_omitted_counterexample :
    [pageNoCtx].length = 1 ∧
    run_phases [pageNoCtx] (String.toList "hello") true []
      = some (⟨[], [], [], []⟩, ([], [])) :=
  ⟨rfl, rfl⟩

/-- C6 (amended): IF the orchestrator run completes without an uncaught
exception, every page that obtained an anchor context in Preprocess (an entry
in `page_contexts`) receives an insertion position — after LocatePages and
ResolveUnmatched it is recorded in the final `matched_points`.  Pages
*without* a context entry are skipped entirely and receive no position (the
counterexample); and the run can instead abort wholesale on a misaligned
`page_info`, placing nothing (see `run_phases_misaligned_page_info_aborts`). -/
theorem run_phases_context_pages_placed (pdf_info : List Page) (md : List Char)
    (ibp : Bool) (fns : List Footnote) (p : Nat) (ctx : PageContext)
    (pre : List PageInfo × List (Nat × PageContext))
    (result : PPState × (List (Int × List Char) × List (Nat × Int)))
    (hpre : preprocess_pages pdf_info 0 = some pre)
    (hctx : pre.2.lookup p = some ctx)
    (hrun : run_phases pdf_info md ibp fns = some result) :
    (result.2.2.lookup p).isSome := by
  have hb := preprocess_pages_lookup_lt pdf_info 0 p pre ctx hpre hctx
  have hp_range : p ∈ List.range pdf_info.length := List.mem_range.mpr (by omega)
  have hcs : (pre.2.lookup p).isSome := by
    rw [hctx]
    rfl
  unfold run_phases at hrun
  simp only [hpre] at hrun
  rcases hpp : process_pages md pre.1 pre.2 ibp fns pdf_info.length [] [] with _ | st
  · simp [hpp] at hrun
  · simp only [hpp] at hrun
    obtain rfl := Option.some.inj hrun
    have hloop : processPagesLoop md pre.1 pre.2 ibp fns
        (List.range pdf_info.length) ⟨[], [], [], []⟩ = some st := hpp
    have h1 := processPagesLoop_inRec md pre.1 pre.2 ibp fns
      (List.range pdf_info.length) ⟨[], [], [], []⟩ st p hloop hp_range hcs
    show ((process_unmatched_pages md ibp fns pdf_info.length
        st.unmatched_pages st.matched_points).2.lookup p).isSome
    unfold process_unmatched_pages
    split
    · rename_i he
      rcases h1 with hm | hu
      · exact hm
      · exfalso
        rw [List.isEmpty_iff] at he
        rw [he] at hu
        simp at hu
    · rcases h1 with hm | hu
      · exact resolve_fold_mono md ibp fns pdf_info.length _ _ p hm
      · exact resolve_fold_self md ibp fns pdf_info.length _ _ p
          ((sortDescBy_perm id _).mem_iff.mpr hu)

/-- C6 witness: the run over `[pageHello]` completes without an exception,
page 0 obtains a context from its `hello` block, and it appears in the final
`matched_points`. -/
theorem run_phases_context_pages_placed_witness :
    (([(0, (0 : Int))] : List (Nat × Int)).lookup 0).isSome :=
  run_phases_context_pages_placed [pageHello] (String.toList "hello world") true [] 0
    { text := String.toList "hello", bbox := [0, 0, 10, 20], type := some ("text".toList) }
    ([⟨792, [blkHello], []⟩],
     [(0, { text := String.toList "hello", bbox := [0, 0, 10, 20],
            type := some ("text".toList) })])
    (⟨[((0 : Int), marksFor true [] 0)], [0], [(0, (0 : Int))], []⟩, ([], [(0, (0 : Int))]))
    (by rfl) (by rfl) (by rfl)

end Mineru
